import Mathlib

/-!
Verification of the CPU scheduling simulation engine of `src/modules/compute.py`
(CPUShedulingSim).  The engine is embedded shallowly: times and frequencies are
rationals (the Python code computes with floats over rational inputs), numpy
arrays become `List`s, the event loop becomes a fuel-indexed step function, and
the class hierarchy (`CPUScheduler` with `RateMonotonic` / `EDF` / `CycleEDF`
subclasses plus the standalone `FCFS`) becomes one engine parameterised by an
`Algo` tag, matching the abstract-method dispatch of the source.
-/

namespace CPUSchedSim

/-- A row of `computed_results`: `[task_num, start_time, end_time, frequency]`.
`stop` is the source's `end_time` column (`end` is a Lean keyword). -/
structure Row where
  task : ℕ
  start : ℚ
  stop : ℚ
  freq : ℚ
deriving Repr, DecidableEq

/-- One ready-queue entry: `[task_number, task_deadline, task_remaining_execution_time]`
(a row of `self.ready_queue`).  `pri` is column 1 (period for RM, absolute
deadline for EDF/CC-EDF). -/
structure QEntry where
  task : ℕ
  pri : ℚ
  rem : ℚ
deriving Repr, DecidableEq

/-- The `dict_info` dictionary returned by `compute`; each well-known key is an
optional field (`none` = key absent). -/
structure Info where
  schedulability : Option String := none
  missed_task_num : Option ℚ := none
  miss_occurance : Option ℚ := none
  warning : Option String := none
deriving Repr, DecidableEq

/-- The three preemptive algorithm subclasses of `CPUScheduler`. -/
inductive Algo where
  | rm
  | edf
  | ccedf
deriving Repr, DecidableEq

/-- Constructor arguments of `CPUScheduler`: `wc_exec_time`, `periods`,
`invocations` (only CC-EDF, else `None`), `end_time` (only RM/EDF, else ∞,
represented as `none`). -/
structure EngParams where
  algo : Algo
  wc_exec_time : List ℚ
  periods : List ℚ
  invocations : Option (List (List ℚ))
  end_time : Option ℚ
deriving Repr, DecidableEq

/-- `self.num_invocations`: number of rows of `invocations`, or ∞ (`none`)
when `invocations is None`. -/
def EngParams.num_invocations (p : EngParams) : Option ℕ :=
  p.invocations.map List.length

/-- Mutable attributes of a `CPUScheduler` instance during `compute`. -/
structure EngState where
  ready_queue : List QEntry
  computed_results : List Row
  dict_info : Info
  period_counter : List ℕ
  inv_counter : List ℕ
  current_time : ℚ
  bc_exec_time : List ℚ
deriving Repr, DecidableEq

/-- First index of the minimum of `l` (`np.argmin`), accumulator form. -/
def argminAux : List ℚ → ℕ → ℕ → ℚ → ℕ
  | [], _, best, _ => best
  | x :: xs, i, best, bv =>
      if x < bv then argminAux xs (i + 1) i x else argminAux xs (i + 1) best bv

/-- `np.argmin` on a list of rationals: first index attaining the minimum
(0 on the empty list, which the source never queries). -/
def argminQ : List ℚ → ℕ
  | [] => 0
  | x :: xs => argminAux xs 1 0 x

/-- First index of the maximum of `l` (`np.argmax`), accumulator form. -/
def argmaxAux : List ℚ → ℕ → ℕ → ℚ → ℕ
  | [], _, best, _ => best
  | x :: xs, i, best, bv =>
      if bv < x then argmaxAux xs (i + 1) i x else argmaxAux xs (i + 1) best bv

/-- `np.argmax` on a list of rationals: first index attaining the maximum. -/
def argmaxQ : List ℚ
 → ℕ
  | [] => 0
  | x :: xs => argmaxAux xs 1 0 x

/-- Sum of a list of rationals (`sum(...)` over a numpy array). -/
def sumQ (l : List ℚ) : ℚ := l.foldr (· + ·) 0

/-- `next_deadlines = self.periods * self.period_counter` (elementwise). -/
def next_deadlines (periods : List ℚ) (period_counter : List ℕ) : List ℚ :=
  List.zipWith (fun p (c : ℕ) => p * (c : ℚ)) periods period_counter

/-- `CPUScheduler._get_task`: pop the entry with the minimal priority key
(column 1); on ties, `_break_priority_tie` picks among the tied entries the one
that has executed the most (`argmax` of `wc_exec_time[task] - rem`, first
maximal index), i.e. the entry at queue index `min_loc[max_index]`.  Returns
the popped entry together with the queue with that entry deleted, or `none`
if the queue is empty. -/
def get_task (wc_exec_time : List ℚ) (q : List QEntry) : Option (QEntry × List QEntry) :=
  match q with
  | [] => none
  | e0 :: _ =>
    let pris := q.map (·.pri)
    let min_index := argminQ pris
    let min_val := pris.getD min_index 0
    let min_loc := (List.range q.length).filter (fun i => pris.getD i 0 = min_val)
    if 1 < min_loc.length then
      let sub := min_loc.map (fun i => q.getD i e0)
      let sub_ran_exec := sub.map (fun e => wc_exec_time.getD e.task 0 - e.rem)
      let max_index := argmaxQ sub_ran_exec
      let delete_index := min_loc.getD max_index 0
      some (sub.getD max_index e0, q.eraseIdx delete_index)
    else
      some (q.getD min_index e0, q.eraseIdx min_index)

/-- `CPUScheduler._insert_computed_results`: if the most recent row has the same
task and its end equals the new row's start, overwrite its end with the new end
(the frequency column of the old row is kept); otherwise append the new row.
Written as structural recursion on the list ("modify the last element"). -/
def insert_computed_results : List Row → Row → List Row
  | [], new => [new]
  | [recent], new =>
      if recent.task = new.task ∧ recent.stop = new.start then
        [{ recent with stop := new.stop }]
      else
        [recent, new]
  | r :: rest, new => r :: insert_computed_results rest new

/-- Insert into an ascending list of naturals (helper for `np.unique`). -/
def insertAsc (x : ℕ) : List ℕ → List ℕ
  | [] => [x]
  | y :: ys => if x ≤ y then x :: y :: ys else y :: insertAsc x ys

/-- Insertion sort of a list of naturals (ascending), for `np.unique`. -/
def sortAsc (l : List ℕ) : List ℕ := l.foldr insertAsc []

/-- Collapse equal neighbours of an ascending list (the "unique" part of
`np.unique`). -/
def dedupAsc : List ℕ → List ℕ
  | [] => []
  | [x] => [x]
  | x :: y :: rest => if x = y then dedupAsc (y :: rest) else x :: dedupAsc (y :: rest)

/-- The ascending list of task ids having two or more entries in the ready
queue (`u[c > 1]` for `u, c = np.unique(ready_queue[:,0], return_counts=True)`). -/
def duplicated_tasks (q : List QEntry) : List ℕ :=
  let ids := q.map (·.task)
  (dedupAsc (sortAsc ids)).filter (fun d => 1 < ids.count d)

/-- `CPUScheduler._check_missed_deadline`: if some task id is duplicated in the
ready queue, record `missed_task_num = duplicated id + 1` and
`miss_occurance = interrupting_release` in `dict_info` and return `true`.
(The source converts the array of duplicated ids with `float(...)`, which
requires it to be a singleton; on every reachable state there is at most one
duplicated id, and `head` of the ascending list is that id.) -/
def check_missed_deadline (q : List QEntry) (interrupting_release : ℚ)
    (info : Info) : Bool × Info :=
  match duplicated_tasks q with
  | [] => (false, info)
  | d :: _ =>
      (true, { info with missed_task_num := some ((d : ℚ) + 1),
                         miss_occurance := some interrupting_release })

/-- `CycleEDF._compute_frequency`: save `prior = bc_exec_time[k]`, temporarily
set `bc_exec_time[k] = wc_exec_time[k]`, compute
`freq = min(1, sum(bc_exec_time / periods))`, `exec_t = inv_exec_t / freq`,
then commit `bc_exec_time[k] = inv_exec_t` if `inv_exec_t < prior` else restore
`prior`.  Returns `(exec_t, freq, new bc_exec_time)`. -/
def cc_compute_frequency (wc_exec_time periods bc : List ℚ) (inv_exec_t : ℚ)
    (task_num : ℕ) : ℚ × ℚ × List ℚ :=
  let bc1 := bc.set task_num (wc_exec_time.getD task_num 0)
  let freq0 := sumQ (List.zipWith (fun b p => b / p) bc1 periods)
  let freq := if 1 < freq0 then 1 else freq0
  let exec_t := inv_exec_t / freq
  let prior := bc.getD task_num 0
  let bc2 := if inv_exec_t < prior then bc1.set task_num inv_exec_t
             else bc1.set task_num prior
  (exec_t, freq, bc2)

/-- `_compute_frequency` dispatched on the subclass: RM and EDF return
`(inv_exec_t, 1)` and leave `bc_exec_time` unused; CC-EDF applies
`cc_compute_frequency`. -/
def compute_frequency (p : EngParams) (bc : List ℚ) (inv_exec_t : ℚ)
    (task_num : ℕ) : ℚ × ℚ × List ℚ :=
  match p.algo with
  | .rm => (inv_exec_t, 1, bc)
  | .edf => (inv_exec_t, 1, bc)
  | .ccedf => cc_compute_frequency p.wc_exec_time p.periods bc inv_exec_t task_num

/-- `_insert_nearest_task` dispatched on the subclass (entry appended to the
ready queue when it was empty).  RM: `(j, P_j, C_j)`.
EDF: `(j, P_j * (period_counter[j] + 1), C_j)`.
CC-EDF: `(j, P_j * (period_counter[j] + 1), invocations[period_counter[j]][j])`.
All read `period_counter` before it is incremented. -/
def nearest_entry (p : EngParams) (period_counter : List ℕ) (j : ℕ) : QEntry :=
  match p.algo with
  | .rm => ⟨j, p.periods.getD j 0, p.wc_exec_time.getD j 0⟩
  | .edf => ⟨j, p.periods.getD j 0 * ((period_counter.getD j 0 : ℚ) + 1),
             p.wc_exec_time.getD j 0⟩
  | .ccedf =>
      let inv := p.invocations.getD []
      ⟨j, p.periods.getD j 0 * ((period_counter.getD j 0 : ℚ) + 1),
       (inv.getD (period_counter.getD j 0) []).getD j 0⟩

/-- `_insert_interrupting_task` dispatched on the subclass (entry appended when
a release preempts the running task).  RM: `(j, P_j, C_j)`.
EDF: `(j, P_j * (period_counter[j] + 1), C_j)`.
CC-EDF: `(j, P_j * (period_counter[j] + 1), invocations[period_counter[j] - 1][j])`.
All read `period_counter` before it is incremented. -/
def interrupting_entry (p : EngParams) (period_counter : List ℕ) (j : ℕ) : QEntry :=
  match p.algo with
  | .rm => ⟨j, p.periods.getD j 0, p.wc_exec_time.getD j 0⟩
  | .edf => ⟨j, p.periods.getD j 0 * ((period_counter.getD j 0 : ℚ) + 1),
             p.wc_exec_time.getD j 0⟩
  | .ccedf =>
      let inv := p.invocations.getD []
      ⟨j, p.periods.getD j 0 * ((period_counter.getD j 0 : ℚ) + 1),
       (inv.getD (period_counter.getD j 0 - 1) []).getD j 0⟩

/-- `inv_counter[j] < self.num_invocations` (`num_invocations = np.inf` for
RM/EDF, so the test is then always true). -/
def below_num_invocations (p : EngParams) (inv_counter : List ℕ) (j : ℕ) : Bool :=
  match p.num_invocations with
  | none => true
  | some k => inv_counter.getD j 0 < k

/-- The loop guard of `CPUScheduler.compute`:
`any(inv_counter < num_invocations) and current_time < end_time`
(with `np.inf` for the missing bound). -/
def loop_cond (p : EngParams) (s : EngState) : Bool :=
  (match p.num_invocations with
   | none => decide (0 < s.inv_counter.length)
   | some k => s.inv_counter.any (fun c => c < k)) &&
  (match p.end_time with
   | none => true
   | some t => decide (s.current_time < t))

/-- Result of one iteration of the `while` loop: either continue with the new
state, or the `break` on a detected missed deadline. -/
inductive StepRes where
  | next (s : EngState)
  | missed (s : EngState)
deriving Repr, DecidableEq

/-- The empty-ready-queue branch of the loop (source lines 293-304): jump to
the nearest release, insert the released task (only while its invocation
counter is below the bound), and advance its period counter. -/
def idle_branch (p : EngParams) (s : EngState) (nd : List ℚ) : EngState :=
  let nearest_task := argminQ nd
  let nearest_release := nd.getD nearest_task 0
  let q1 := s.ready_queue ++ [nearest_entry p s.period_counter nearest_task]
  let s1 :=
    if below_num_invocations p s.inv_counter nearest_task then
      { s with current_time := nearest_release, ready_queue := q1 }
    else s
  let pc1 := s.period_counter.set nearest_task (s.period_counter.getD nearest_task 0 + 1)
  { s1 with period_counter := pc1 }

/-- The uninterrupted-completion branch (source lines 319-325): emit the
segment, advance the clock to the task's end, bump its invocation counter. -/
def completion_branch (s : EngState) (q' : List QEntry) (task_num : ℕ)
    (task_end_time freq : ℚ) (bc' : List ℚ) : EngState :=
  let res1 := insert_computed_results s.computed_results
    ⟨task_num, s.current_time, task_end_time, freq⟩
  let ic1 := s.inv_counter.set task_num (s.inv_counter.getD task_num 0 + 1)
  { s with ready_queue := q', bc_exec_time := bc', computed_results := res1,
           current_time := task_end_time, inv_counter := ic1 }

/-- The preemption branch (source lines 327-362): insert the interrupting
task (only while below the invocation bound), advance its period counter,
re-insert the running task when work remains (else bump its invocation
counter), emit the segment run so far unless empty, move the clock to the
interrupting release, and check the ready queue for duplicates.  Returns the
`deadline_missed` flag together with the new state. -/
def preempt_branch (p : EngParams) (s : EngState) (nd : List ℚ) (q' : List QEntry)
    (running_task : QEntry) (task_end_time freq : ℚ) (bc' : List ℚ) :
    Bool × EngState :=
  let task_num := running_task.task
  let deadline := running_task.pri
  let interrupting_task := argminQ nd
  let interrupting_release := nd.getD interrupting_task 0
  let running_remain_exec := (task_end_time - interrupting_release) * freq
  let q1 :=
    if below_num_invocations p s.inv_counter interrupting_task then
      q' ++ [interrupting_entry p s.period_counter interrupting_task]
    else q'
  let pc1 := s.period_counter.set interrupting_task
               (s.period_counter.getD interrupting_task 0 + 1)
  let q2 := if 0 < running_remain_exec then
              q1 ++ [(⟨task_num, deadline, running_remain_exec⟩ : QEntry)]
            else q1
  let ic1 := if 0 < running_remain_exec then s.inv_counter
             else s.inv_counter.set task_num (s.inv_counter.getD task_num 0 + 1)
  let res1 := if s.current_time ≠ interrupting_release then
                insert_computed_results s.computed_results
                  ⟨task_num, s.current_time, interrupting_release, freq⟩
              else s.computed_results
  let dm := check_missed_deadline q2 interrupting_release s.dict_info
  (dm.1,
   { ready_queue := q2,
     computed_results := res1,
     dict_info := dm.2,
     period_counter := pc1,
     inv_counter := ic1,
     current_time := interrupting_release,
     bc_exec_time := bc' })

/-- One iteration of the `while` loop of `CPUScheduler.compute` (source lines
287-362), assuming the loop guard holds.  Faithful to the source's order of
effects; queue insertions append at the end (`np.concatenate`). -/
def engine_step (p : EngParams) (s : EngState) : StepRes :=
  let nd := next_deadlines p.periods s.period_counter
  match get_task p.wc_exec_time s.ready_queue with
  | none => .next (idle_branch p s nd)
  | some (running_task, q') =>
      let cf := compute_frequency p s.bc_exec_time running_task.rem running_task.task
      let task_end_time := s.current_time + cf.1
      if nd.all (fun d => task_end_time < d) then
        .next (completion_branch s q' running_task.task task_end_time cf.2.1 cf.2.2)
      else
        let pb := preempt_branch p s nd q' running_task task_end_time cf.2.1 cf.2.2
        if pb.1 then .missed pb.2 else .next pb.2

/-- The `while` loop, indexed by fuel.  Returns the final state and `true` when
the loop really finished (guard became false, or the missed-deadline `break`);
`false` means the fuel ran out mid-loop. -/
def engine_run (p : EngParams) : ℕ → EngState → EngState × Bool
  | 0, s => (s, !loop_cond p s)
  | fuel + 1, s =>
      if loop_cond p s then
        match engine_step p s with
        | .next s' => engine_run p fuel s'
        | .missed s' => (s', true)
      else (s, true)

/-- `_check_schedulability` of `EDF`: `schedulability = "yes"` iff the
utilization `sum(wc_exec_time / periods)` is at most 1, else `"no"`. -/
def edf_check_schedulability (p : EngParams) (info : Info) : Info :=
  let utilization := sumQ (List.zipWith (fun c per => c / per) p.wc_exec_time p.periods)
  { info with schedulability := some (if utilization ≤ 1 then "yes" else "no") }

/-- `_check_schedulability` of `RateMonotonic`: `schedulability = "yes"` iff
`U ≤ N * (2 ^ (1 / N) - 1)`, else `"maybe"`.  The real-number comparison is
expressed in the equivalent rational form `(U / N + 1) ^ N ≤ 2` (both sides of
the source's comparison are obtained from it by the strictly monotone maps
`x ↦ x ^ (1 / N)` and `x ↦ N * (x - 1)` on the relevant range), which keeps
the definition computable. -/
def rm_check_schedulability (p : EngParams) (info : Info) : Info :=
  let utilization := sumQ (List.zipWith (fun c per => c / per) p.wc_exec_time p.periods)
  let num_tasks := p.wc_exec_time.length
  let verdict : String := if (utilization / (num_tasks : ℚ) + 1) ^ num_tasks ≤ 2 then "yes" else "maybe"
  { info with schedulability := some verdict }

/-- `_check_schedulability` of `CycleEDF`: if the worst-case utilization
exceeds 1, record the warning string. -/
def cc_check_schedulability (p : EngParams) (info : Info) : Info :=
  let utilization := sumQ (List.zipWith (fun c per => c / per) p.wc_exec_time p.periods)
  let msg : String := "The sum of utilization of worst case execution time of all tasks >= 1"
  if 1 < utilization then { info with warning := some msg } else info

/-- `_check_schedulability` dispatched on the subclass. -/
def check_schedulability (p : EngParams) (info : Info) : Info :=
  match p.algo with
  | .rm => rm_check_schedulability p info
  | .edf => edf_check_schedulability p info
  | .ccedf => cc_check_schedulability p info

/-- `[[i, per, exec] for i, (per, exec) in enumerate(zip(...))]`: build one
queue entry per task, numbering from `i`. -/
def build_queue (i : ℕ) : List (ℚ × ℚ) → List QEntry
  | [] => []
  | (per, exec) :: rest => ⟨i, per, exec⟩ :: build_queue (i + 1) rest

/-- `_initialize_ready_queue` dispatched on the subclass: one entry per task,
priority = period, remaining = `wc_exec_time[i]` (RM/EDF) or
`invocations[0][i]` (CC-EDF). -/
def initialize_ready_queue (p : EngParams) : List QEntry :=
  match p.algo with
  | .rm => build_queue 0 (p.periods.zip p.wc_exec_time)
  | .edf => build_queue 0 (p.periods.zip p.wc_exec_time)
  | .ccedf => build_queue 0 (p.periods.zip ((p.invocations.getD []).getD 0 []))

/-- The state at the top of the `while` loop of `compute`: the ready queue from
`__init__`, `dict_info` populated by `_check_schedulability`,
`period_counter = ones`, `inv_counter = zeros`, `current_time = 0`,
`bc_exec_time = wc_exec_time` (the `CycleEDF` attribute; RM/EDF never read it). -/
def init_state (p : EngParams) : EngState :=
  { ready_queue := initialize_ready_queue p,
    computed_results := [],
    dict_info := check_schedulability p {},
    period_counter := p.periods.map (fun _ => 1),
    inv_counter := p.periods.map (fun _ => 0),
    current_time := 0,
    bc_exec_time := p.wc_exec_time }

/-- `CPUScheduler.compute` (fuel-indexed): run the loop from the initial state
and return `(computed_results, dict_info)`. -/
def engine_compute (p : EngParams) (fuel : ℕ) : List Row × Info :=
  let (s, _) := engine_run p fuel (init_state p)
  (s.computed_results, s.dict_info)

/-- Constructor wiring of `RateMonotonic(periods, wc_exec_time, end_time)`. -/
def rm_params (periods wc_exec_time : List ℚ) (end_time : ℚ) : EngParams :=
  { algo := .rm, wc_exec_time := wc_exec_time, periods := periods,
    invocations := none, end_time := some end_time }

/-- Constructor wiring of `EDF(periods, wc_exec_time, end_time)`. -/
def edf_params (periods wc_exec_time : List ℚ) (end_time : ℚ) : EngParams :=
  { algo := .edf, wc_exec_time := wc_exec_time, periods := periods,
    invocations := none, end_time := some end_time }

/-- Constructor wiring of `CycleEDF(periods, wc_exec_time, invocations)`
(`end_time = np.inf`). -/
def cc_params (periods wc_exec_time : List ℚ) (invocations : List (List ℚ)) : EngParams :=
  { algo := .ccedf, wc_exec_time := wc_exec_time, periods := periods,
    invocations := some invocations, end_time := none }

/-- One admissible result of `np.argsort(release_time)`: the permutation of
`0..N-1` sorting tasks by ascending release time with ties resolved by task
index.  numpy's default quicksort is documented as not stable — only arrays of
at most 16 elements take its insertion-sort path, and from 17 elements on the
partition step can reorder tied elements — so this stable representative is
what numpy produces on small inputs, while the program's order in general is
only constrained by the contract `ArgsortSpec` below.  Claims about the
processing order are stated against `ArgsortSpec`; the executable `fcfs_compute`
uses this representative. -/
def fcfs_task_order (release_time : List ℚ) : List ℕ :=
  (List.range release_time.length).mergeSort
    (fun i j => decide (release_time.getD i 0 < release_time.getD j 0 ∨
      (release_time.getD i 0 = release_time.getD j 0 ∧ i ≤ j)))

/-- `np.argsort(release_time)` modelled by its documented contract (numpy is
not code of this repository): the result is a permutation of `0..N-1` along
which the release times are non-decreasing.  The default kind
(quicksort/introsort) guarantees nothing about the order of tied elements. -/
def ArgsortSpec (release_time : List ℚ) (order : List ℕ) : Prop :=
  order.Perm (List.range release_time.length) ∧
  List.Pairwise (fun i j => release_time.getD i 0 ≤ release_time.getD j 0) order

/-- The `for task in task_sorted` loop body of `FCFS.compute`, recursing over
the sorted task list with `current_time`, the accumulated `computed_results`
(plain appends; FCFS does no merging) and `dict_info`.  `deadlines = none`
models the `np.inf` defaults (the miss test is then never true).  On a missed
deadline the loop emits `(task, start, deadline, 1)`, records
`schedulability = "no"`, `missed_task_num = task + 1`,
`miss_occurance = deadline`, and breaks; otherwise it emits
`(task, start, start + wc, 1)` and sets `schedulability = "yes"`. -/
def fcfs_go (release_time wc_exec_time : List ℚ) (deadlines : Option (List ℚ)) :
    List ℕ → ℚ → List Row → Info → List Row × Info
  | [], _, res, info => (res, info)
  | task :: rest, current_time, res, info =>
      let release := release_time.getD task 0
      let start_time := if current_time < release then release else current_time
      let wc := wc_exec_time.getD task 0
      match deadlines with
      | some dl =>
          if dl.getD task 0 < start_time + wc then
            let info' : Info :=
              { info with schedulability := some "no",
                          missed_task_num := some ((task : ℚ) + 1),
                          miss_occurance := some (dl.getD task 0) }
            (res ++ [⟨task, start_time, dl.getD task 0, 1⟩], info')
          else
            fcfs_go release_time wc_exec_time deadlines rest (start_time + wc)
              (res ++ [⟨task, start_time, start_time + wc, 1⟩])
              { info with schedulability := some "yes" }
      | none =>
          fcfs_go release_time wc_exec_time deadlines rest (start_time + wc)
            (res ++ [⟨task, start_time, start_time + wc, 1⟩])
            { info with schedulability := some "yes" }

/-- `FCFS.compute`: process tasks in `np.argsort(release_time)` order from
`current_time = 0` and return `(computed_results, dict_info)`. -/
def fcfs_compute (release_time wc_exec_time : List ℚ)
    (deadlines : Option (List ℚ)) : List Row × Info :=
  fcfs_go release_time wc_exec_time deadlines (fcfs_task_order release_time) 0 [] {}

/-- The `task_info` dictionary passed to `cpu_scheduling_compute`; every key the
facade or a constructor may read is an optional field (`none` = key absent). -/
structure TaskInfo where
  scheduling_algo : Option String := none
  wc_exec_time : Option (List ℚ) := none
  release_time : Option (List ℚ) := none
  end_time : Option ℚ := none
  periods : Option (List ℚ) := none
  invocations : Option (List (List ℚ)) := none
  deadlines : Option (List ℚ) := none
deriving Repr, DecidableEq

/-- The error taxonomy of the facade (spec section 7).  `InvalidTaskSet` is a
constructor of the type so that its absence from every code path is statable;
`MissingField` stands for the `KeyError`/`TypeError` a missing key raises,
`UnknownAlgorithm` for the `KeyError` of an unknown `ALGO_MAPPING` lookup. -/
inductive SchedErr where
  | UnknownAlgorithm
  | MissingField
  | InvalidTaskSet
deriving Repr, DecidableEq

/-- `cpu_scheduling_compute(task_info)`: read `scheduling_algo`, delete that key
from the record (`del task_info['scheduling_algo']` mutates the caller's
dictionary), construct the class mapped by `ALGO_MAPPING` with the remaining
fields, and run `compute`.  Returns the result together with the `task_info`
record as it is left after the call.  (Surplus keys, a `TypeError` in Python,
are not modelled; the recursion fuel of the preemptive engine is passed
through.) -/
def cpu_scheduling_compute (task_info : TaskInfo) (fuel : ℕ) :
    Except SchedErr ((List Row × Info) × TaskInfo) :=
  match task_info.scheduling_algo with
  | none => .error .MissingField
  | some algo =>
      let rest := { task_info with scheduling_algo := none }
      if algo = "rate_monotonic" then
        match rest.periods, rest.wc_exec_time, rest.end_time with
        | some per, some wc, some et => .ok (engine_compute (rm_params per wc et) fuel, rest)
        | _, _, _ => .error .MissingField
      else if algo = "earliest_deadline_first" then
        match rest.periods, rest.wc_exec_time, rest.end_time with
        | some per, some wc, some et => .ok (engine_compute (edf_params per wc et) fuel, rest)
        | _, _, _ => .error .MissingField
      else if algo = "CycleEDF" then
        match rest.periods, rest.wc_exec_time, rest.invocations with
        | some per, some wc, some inv => .ok (engine_compute (cc_params per wc inv) fuel, rest)
        | _, _, _ => .error .MissingField
      else if algo = "first_come_first_serve" then
        match rest.release_time, rest.wc_exec_time with
        | some rel, some wc => .ok (fcfs_compute rel wc rest.deadlines, rest)
        | _, _ => .error .MissingField
      else .error .UnknownAlgorithm

/-! ## Validity of task sets

The predicates the spec imposes on inputs (positive periods and execution
times, matching lengths; CC-EDF additionally nonnegative invocation entries in
rows of width `N`). -/

/-- A well-formed `(periods, wc_exec_time)` pair. -/
def PerValid (periods wc_exec_time : List ℚ) : Prop :=
  wc_exec_time.length = periods.length ∧
    (∀ x ∈ periods, 0 < x) ∧ (∀ x ∈ wc_exec_time, 0 < x)

instance (periods wc : List ℚ) : Decidable (PerValid periods wc) := by
  unfold PerValid; infer_instance

/-- A well-formed invocation matrix for `periods`: every row has one entry per
task and entries are nonnegative. -/
def InvValid (periods : List ℚ) (invocations : List (List ℚ)) : Prop :=
  ∀ row ∈ invocations, row.length = periods.length ∧ ∀ v ∈ row, 0 ≤ v

instance (periods : List ℚ) (inv : List (List ℚ)) : Decidable (InvValid periods inv) := by
  unfold InvValid; infer_instance

/-- Reference model for claim C6, following the spec's words: process the
tasks in the given order with `start = max(current_time, R_i)`; with deadlines,
on the first task with `start + C_i > D_i` emit `(i, start, D_i, 1)`, set
`schedulability = "no"`, `missed_task_num = i + 1`, `miss_occurance = D_i` and
stop; otherwise emit `(i, start, start + C_i, 1)` and set
`schedulability = "yes"`. -/
def fcfs_spec_go (rel wc : List ℚ) (dl : Option (List ℚ)) :
    List ℕ → ℚ → List Row → Info → List Row × Info
  | [], _, res, info => (res, info)
  | t :: rest, cur, res, info =>
      let st := max cur (rel.getD t 0)
      let C := wc.getD t 0
      match dl with
      | some d =>
          if st + C > d.getD t 0 then
            (res ++ [⟨t, st, d.getD t 0, 1⟩],
             { info with schedulability := some "no",
                         missed_task_num := some ((t : ℚ) + 1),
                         miss_occurance := some (d.getD t 0) })
          else
            fcfs_spec_go rel wc dl rest (st + C) (res ++ [⟨t, st, st + C, 1⟩])
              { info with schedulability := some "yes" }
      | none =>
          fcfs_spec_go rel wc dl rest (st + C) (res ++ [⟨t, st, st + C, 1⟩])
            { info with schedulability := some "yes" }

/-- The spec's FCFS scheduler (reference model for C6): the loop above over
the release-sorted task order, from time 0 with no accumulated rows. -/
def fcfs_spec_compute (rel wc : List ℚ) (dl : Option (List ℚ)) : List Row × Info :=
  fcfs_spec_go rel wc dl (fcfs_task_order rel) 0 [] {}

/-- Following the spec's words (section 7): the conditions under which a task
set is invalid, so that construction must fail with `InvalidTaskSet`. -/
def InvalidTaskSetSpec (periods wc : List ℚ)
    (invocations : Option (List (List ℚ))) : Prop :=
  periods.length = 0 ∨ wc.length ≠ periods.length ∨
    (∃ x ∈ periods, x ≤ 0) ∨ (∃ c ∈ wc, c ≤ 0) ∨
    (∃ i, i < periods.length ∧ periods.getD i 0 < wc.getD i 0) ∨
    (∃ inv, invocations = some inv ∧
      ((∃ row ∈ inv, row.length ≠ periods.length) ∨
       (∃ row ∈ inv, ∃ i, i < row.length ∧ wc.getD i 0 < row.getD i 0)))

/-- The largest period (0 when there are none); used only to bound the number
of loop iterations for the termination argument C7. -/
def maxPeriod (p : EngParams) : ℚ :=
  p.periods.foldr max 0

/-- An upper bound on the value `period_counter[j]` can take at any loop-top
state of a run (plus one): RM/EDF release task `j` only while
`current_time < T_end`, CC-EDF only while some task still has invocations
left.  Used as the per-task budget of the termination measure for C7. -/
def step_bound (p : EngParams) (j : ℕ) : ℕ :=
  match p.invocations with
  | none =>
      match p.end_time with
      | some T => Nat.ceil (T / p.periods.getD j 0) + 2
      | none => 0
  | some inv => Nat.ceil (maxPeriod p * ((inv.length : ℚ) + 1) / p.periods.getD j 0) + 2

/-- The termination measure of the `while` loop (C7): total remaining period
budget, weighted so that one preemption (which can grow the ready queue by
one) still decreases it, plus the ready-queue length. -/
def run_measure (p : EngParams) (s : EngState) : ℕ :=
  (p.periods.length + 1) *
    ((List.range p.periods.length).map
      (fun i => step_bound p i -
        min (s.period_counter.getD i 0) (step_bound p i))).sum
  + s.ready_queue.length

/-! ## List utility lemmas -/

theorem getD_set_self {α : Type} (l : List α) (i : ℕ) (v d : α) (h : i < l.length) :
    (l.set i v).getD i d = v := by
  rw [List.getD_eq_getElem?_getD, List.getElem?_set_self h]; rfl

theorem getD_set_ne {α : Type} (l : List α) (i j : ℕ) (v d : α) (h : i ≠ j) :
    (l.set i v).getD j d = l.getD j d := by
  rw [List.getD_eq_getElem?_getD, List.getElem?_set_ne h, ← List.getD_eq_getElem?_getD]

theorem getD_mem {α : Type} (l : List α) (i : ℕ) (d : α) (h : i < l.length) :
    l.getD i d ∈ l := by
  rw [List.getD_eq_getElem?_getD, List.getElem?_eq_getElem h]
  exact List.getElem_mem h

/-- Where `argminAux` can land: at the accumulator `best`, or at one of the
positions `i, …, i + xs.length - 1` still to scan. -/
theorem argminAux_range (xs : List ℚ) : ∀ (i best : ℕ) (bv : ℚ),
    argminAux xs i best bv = best ∨
      (i ≤ argminAux xs i best bv ∧ argminAux xs i best bv < i + xs.length) := by
  induction xs with
  | nil => intro i best bv; exact Or.inl rfl
  | cons x xs ih =>
      intro i best bv
      simp only [argminAux, List.length_cons]
      by_cases hx : x < bv
      · simp only [hx, if_pos]
        rcases ih (i + 1) i x with h | h
        · rw [h]; exact Or.inr (by omega)
        · exact Or.inr (by omega)
      · simp only [hx, if_neg, if_false]
        rcases ih (i + 1) best bv with h | h
        · exact Or.inl h
        · exact Or.inr (by omega)

theorem argminQ_lt_length (l : List ℚ) (h : l ≠ []) : argminQ l < l.length := by
  cases l with
  | nil => exact absurd rfl h
  | cons x xs =>
      simp only [argminQ, List.length_cons]
      rcases argminAux_range xs 1 0 x with h | h
      · omega
      · omega

/-- The value at the index `argminAux` returns, read off a global list `l`
whose positions `i + k` agree with `xs`, is a lower bound of the accumulator
value and of all scanned values. -/
theorem argminAux_min (xs : List ℚ) : ∀ (i best : ℕ) (bv : ℚ) (l : List ℚ),
    l.getD best 0 = bv → (∀ k, k < xs.length → l.getD (i + k) 0 = xs.getD k 0) →
      l.getD (argminAux xs i best bv) 0 ≤ bv ∧
        ∀ k, k < xs.length → l.getD (argminAux xs i best bv) 0 ≤ xs.getD k 0 := by
  induction xs with
  | nil => intro i best bv l hb _; simp only [argminAux]; constructor
           · exact le_of_eq hb
           · intro k hk; simp at hk
  | cons x xs ih =>
      intro i best bv l hb hxs
      have hx0 : l.getD i 0 = x := by
        have := hxs 0 (by simp); simpa using this
      have hxs' : ∀ k, k < xs.length → l.getD (i + 1 + k) 0 = xs.getD k 0 := by
        intro k hk
        have := hxs (k + 1) (by simp; omega)
        simpa [Nat.add_assoc, Nat.add_comm 1 k] using this
      simp only [argminAux]
      by_cases hcmp : x < bv
      · simp only [hcmp, if_pos]
        obtain ⟨h1, h2⟩ := ih (i + 1) i x l hx0 hxs'
        refine ⟨le_trans h1 (le_of_lt hcmp), ?_⟩
        intro k hk
        cases k with
        | zero => simpa using h1
        | succ k => exact h2 k (by simpa using hk)
      · simp only [hcmp, if_neg, if_false]
        obtain ⟨h1, h2⟩ := ih (i + 1) best bv l hb hxs'
        refine ⟨h1, ?_⟩
        intro k hk
        cases k with
        | zero => simpa using (le_trans h1 (not_lt.mp hcmp))
        | succ k => exact h2 k (by simpa using hk)

/-- The element `argminQ` points at is a minimum of the list. -/
theorem argminQ_min (l : List ℚ) : ∀ k, k < l.length → l.getD (argminQ l) 0 ≤ l.getD k 0 := by
  cases l with
  | nil => intro k hk; simp at hk
  | cons x xs =>
      intro k hk
      have hx0 : (x :: xs).getD 0 0 = x := rfl
      have hxs : ∀ j, j < xs.length → (x :: xs).getD (1 + j) 0 = xs.getD j 0 := by
        intro j hj; simp [Nat.add_comm 1 j]
      obtain ⟨h1, h2⟩ := argminAux_min xs 1 0 x (x :: xs) hx0 hxs
      simp only [argminQ]
      cases k with
      | zero => simpa using h1
      | succ k => exact h2 k (by simpa using hk)

/-- The element `argminQ` points at is a lower bound of every member. -/
theorem argminQ_min_mem (l : List ℚ) : ∀ x ∈ l, l.getD (argminQ l) 0 ≤ x := by
  intro x hx
  obtain ⟨k, hk, rfl⟩ := List.getElem_of_mem hx
  have := argminQ_min l k hk
  rwa [List.getD_eq_getElem l 0 hk] at this

theorem argmaxAux_range (xs : List ℚ) : ∀ (i best : ℕ) (bv : ℚ),
    argmaxAux xs i best bv = best ∨
      (i ≤ argmaxAux xs i best bv ∧ argmaxAux xs i best bv < i + xs.length) := by
  induction xs with
  | nil => intro i best bv; exact Or.inl rfl
  | cons x xs ih =>
      intro i best bv
      simp only [argmaxAux, List.length_cons]
      by_cases hx : bv < x
      · simp only [hx, if_pos]
        rcases ih (i + 1) i x with h | h
        · rw [h]; exact Or.inr (by omega)
        · exact Or.inr (by omega)
      · simp only [hx, if_neg, if_false]
        rcases ih (i + 1) best bv with h | h
        · exact Or.inl h
        · exact Or.inr (by omega)

theorem argmaxQ_lt_length (l : List ℚ) (h : l ≠ []) : argmaxQ l < l.length := by
  cases l with
  | nil => exact absurd rfl h
  | cons x xs =>
      simp only [argmaxQ, List.length_cons]
      rcases argmaxAux_range xs 1 0 x with h | h
      · omega
      · omega

/-! ## Lemmas about `get_task` -/

theorem perm_getElem_cons_eraseIdx {α : Type} [DecidableEq α] (l : List α) (i : ℕ)
    (h : i < l.length) : l.Perm (l[i] :: l.eraseIdx i) :=
  (List.perm_cons_erase (List.getElem_mem h)).trans
    (List.Perm.cons _ (List.erase_getElem h))

theorem get_task_eq_none (wc : List ℚ) (q : List QEntry) :
    get_task wc q = none → q = [] := by
  cases q with
  | nil => intro _; rfl
  | cons e0 rest =>
      intro h
      simp only [get_task] at h
      split at h <;> simp at h

theorem get_task_of_ne_nil (wc : List ℚ) (q : List QEntry) (h : q ≠ []) :
    ∃ e q', get_task wc q = some (e, q') := by
  cases hg : get_task wc q with
  | none => exact absurd (get_task_eq_none wc q hg) h
  | some v => obtain ⟨e, q'⟩ := v; exact ⟨e, q', rfl⟩

/-- The popped entry together with the remaining queue is a permutation of the
original ready queue. -/
theorem get_task_perm (wc : List ℚ) (q : List QEntry) (e : QEntry) (q' : List QEntry)
    (h : get_task wc q = some (e, q')) : q.Perm (e :: q') := by
  cases q with
  | nil => simp [get_task] at h
  | cons e0 rest =>
      simp only [get_task] at h
      set ql := e0 :: rest with hql
      set pris := ql.map (·.pri) with hpris
      have hprislen : pris.length = ql.length := List.length_map _ _
      have hqne : ql ≠ [] := by simp [hql]
      split at h
      case isTrue htie =>
        set min_val := pris.getD (argminQ pris) 0 with hmv
        set min_loc := (List.range ql.length).filter (fun i => pris.getD i 0 = min_val) with hml
        set sub := min_loc.map (fun i => ql.getD i e0) with hsub
        set sub_ran := sub.map (fun e => wc.getD e.task 0 - e.rem) with hsr
        have hsublen : sub.length = min_loc.length := List.length_map _ _
        have hsrlen : sub_ran.length = sub.length := List.length_map _ _
        have hmlne : min_loc ≠ [] := by
          intro hnil
          rw [hnil] at htie
          simp at htie
        have hmax : argmaxQ sub_ran < min_loc.length := by
          have := argmaxQ_lt_length sub_ran (by
            intro hnil
            apply hmlne
            have : sub_ran.length = 0 := by rw [hnil]; rfl
            rw [hsrlen, hsublen] at this
            exact List.length_eq_zero.mp this)
          omega
        have hdel_mem : min_loc.getD (argmaxQ sub_ran) 0 ∈ min_loc :=
          getD_mem min_loc (argmaxQ sub_ran) 0 hmax
        have hdel_lt : min_loc.getD (argmaxQ sub_ran) 0 < ql.length := by
          have := List.mem_filter.mp (hml ▸ hdel_mem)
          exact List.mem_range.mp this.1
        have hsubval : sub.getD (argmaxQ sub_ran) e0 =
            ql.getD (min_loc.getD (argmaxQ sub_ran) 0) e0 := by
          rw [hsub]
          rw [List.getD_eq_getElem _ _ (by rw [List.length_map]; exact hmax)]
          rw [List.getElem_map]
          congr 1
          rw [List.getD_eq_getElem _ _ hmax]
        obtain ⟨he, hq'⟩ := Prod.mk.injEq .. ▸ (Option.some.injEq _ _ ▸ h)
        subst hq'
        have heval : e = ql[min_loc.getD (argmaxQ sub_ran) 0] := by
          rw [← he, hsubval, List.getD_eq_getElem _ _ hdel_lt]
        rw [heval]
        exact perm_getElem_cons_eraseIdx ql _ hdel_lt
      case isFalse htie =>
        have hmin_lt : argminQ pris < ql.length := by
          have := argminQ_lt_length pris (by simp [hpris, hql])
          omega
        obtain ⟨he, hq'⟩ := Prod.mk.injEq .. ▸ (Option.some.injEq _ _ ▸ h)
        subst hq'
        have heval : e = ql[argminQ pris] := by
          rw [← he, List.getD_eq_getElem _ _ hmin_lt]
        rw [heval]
        exact perm_getElem_cons_eraseIdx ql _ hmin_lt

theorem get_task_mem (wc : List ℚ) (q : List QEntry) (e : QEntry) (q' : List QEntry)
    (h : get_task wc q = some (e, q')) : e ∈ q :=
  (get_task_perm wc q e q' h).mem_iff.mpr (List.mem_cons_self e q')

theorem get_task_sub_mem (wc : List ℚ) (q : List QEntry) (e : QEntry) (q' : List QEntry)
    (h : get_task wc q = some (e, q')) : ∀ x ∈ q', x ∈ q := by
  intro x hx
  exact (get_task_perm wc q e q' h).mem_iff.mpr (List.mem_cons_of_mem e hx)

/-! ## Lemmas about `insert_computed_results` -/

theorem icr_cons_cons (a b : Row) (rest : List Row) (new : Row) :
    insert_computed_results (a :: b :: rest) new =
      a :: insert_computed_results (b :: rest) new := rfl

/-- `_insert_computed_results` is exactly "extend the last row iff same task
and contiguous in time" (the frequency plays no role). -/
theorem icr_append (rs : List Row) (r new : Row) :
    insert_computed_results (rs ++ [r]) new =
      if r.task = new.task ∧ r.stop = new.start then rs ++ [{ r with stop := new.stop }]
      else rs ++ [r, new] := by
  induction rs with
  | nil =>
      simp only [List.nil_append]
      show insert_computed_results [r] new = _
      simp only [insert_computed_results]
  | cons a rs ih =>
      have hstep : insert_computed_results ((a :: rs) ++ [r]) new =
          a :: insert_computed_results (rs ++ [r]) new := by
        cases rs with
        | nil => rfl
        | cons b rs2 => rfl
      rw [hstep, ih]
      split <;> simp

theorem icr_ne_nil (rs : List Row) (new : Row) :
    insert_computed_results rs new ≠ [] := by
  induction rs with
  | nil => simp [insert_computed_results]
  | cons a rs ih =>
      cases rs with
      | nil =>
          simp only [insert_computed_results]
          split <;> simp
      | cons b rs2 => rw [icr_cons_cons]; simp

/-- The head of the result keeps the first row's `task` and `start`. -/
theorem icr_head (x : Row) (rest : List Row) (new : Row) :
    ∃ x', (insert_computed_results (x :: rest) new).head? = some x' ∧
      x'.start = x.start ∧ x'.task = x.task := by
  cases rest with
  | nil =>
      simp only [insert_computed_results]
      split
      · exact ⟨_, rfl, rfl, rfl⟩
      · exact ⟨x, rfl, rfl, rfl⟩
  | cons b rs2 =>
      rw [icr_cons_cons]
      exact ⟨x, rfl, rfl, rfl⟩

/-- Every row of the result is an old row, the new row, or the last old row
with its end overwritten by the new row's end. -/
theorem icr_mem (rs : List Row) (new : Row) :
    ∀ r ∈ insert_computed_results rs new,
      r ∈ rs ∨ r = new ∨ ∃ old ∈ rs, r = { old with stop := new.stop } := by
  induction rs with
  | nil => intro r hr; simp only [insert_computed_results] at hr
           right; left; simpa using hr
  | cons a rs ih =>
      cases rs with
      | nil =>
          intro r hr
          simp only [insert_computed_results] at hr
          split at hr
          · simp only [List.mem_singleton] at hr
            exact Or.inr (Or.inr ⟨a, List.mem_singleton_self a, hr⟩)
          · rcases List.mem_pair.mp hr with h | h
            · exact Or.inl (h ▸ List.mem_singleton_self a)
            · exact Or.inr (Or.inl h)
      | cons b rs2 =>
          intro r hr
          rw [icr_cons_cons] at hr
          rcases List.mem_cons.mp hr with h | h
          · exact Or.inl (h ▸ List.mem_cons_self a _)
          · rcases ih r h with h' | h' | ⟨old, hold, h'⟩
            · exact Or.inl (List.mem_cons_of_mem a h')
            · exact Or.inr (Or.inl h')
            · exact Or.inr (Or.inr ⟨old, List.mem_cons_of_mem a hold, h'⟩)

/-- `Chain'` preservation for relations that only inspect the left row's
`stop`/`task` and the right row's `start`/`task`: if the relation is blind to
the left argument's `stop` ... (more precisely: stable under replacing the
right row by one with the same `start` and `task`), appending via the builder
preserves it provided the relation holds from the old last row to the new row
in the non-merging case. -/
theorem icr_chain (R : Row → Row → Prop)
    (hR : ∀ a b b', b'.start = b.start → b'.task = b.task → R a b → R a b')
    (rs : List Row) (new : Row) (hrs : List.Chain' R rs)
    (happ : ∀ l, rs.getLast? = some l →
      ¬(l.task = new.task ∧ l.stop = new.start) → R l new) :
    List.Chain' R (insert_computed_results rs new) := by
  induction rs with
  | nil => simp [insert_computed_results]
  | cons a rs ih =>
      cases rs with
      | nil =>
          simp only [insert_computed_results]
          split
          · simp
          case isFalse hcond =>
            simp only [List.chain'_cons, List.chain'_singleton, and_true]
            exact happ a rfl hcond
      | cons b rs2 =>
          rw [icr_cons_cons]
          have hchain := List.chain'_cons.mp hrs
          have hlast : ∀ l, (b :: rs2).getLast? = some l → (a :: b :: rs2).getLast? = some l := by
            intro l hl
            rwa [List.getLast?_cons_cons]
          have ih' := ih hchain.2 (fun l hl hc => happ l (hlast l hl) hc)
          apply List.chain'_cons'.mpr
          refine ⟨?_, ih'⟩
          intro y hy
          obtain ⟨x', hx', hstart, htask⟩ := icr_head b rs2 new
          rw [hx'] at hy
          have hyx : x' = y := by simpa using hy
          exact hyx ▸ hR a b x' hstart htask hchain.1

/-! ## Sum and zipWith helpers -/

theorem sumQ_nonneg (l : List ℚ) (h : ∀ x ∈ l, 0 ≤ x) : 0 ≤ sumQ l := by
  induction l with
  | nil => simp [sumQ]
  | cons x xs ih =>
      have hx := h x (List.mem_cons_self x xs)
      have hxs := ih (fun y hy => h y (List.mem_cons_of_mem x hy))
      show 0 ≤ x + sumQ xs
      linarith

theorem sumQ_pos (l : List ℚ) (h : ∀ x ∈ l, 0 ≤ x) (x : ℚ) (hx : x ∈ l)
    (hxpos : 0 < x) : 0 < sumQ l := by
  induction l with
  | nil => simp at hx
  | cons y ys ih =>
      have hys : ∀ z ∈ ys, 0 ≤ z := fun z hz => h z (List.mem_cons_of_mem y hz)
      show 0 < y + sumQ ys
      rcases List.mem_cons.mp hx with h1 | h1
      · have := sumQ_nonneg ys hys
        subst h1; linarith
      · have := ih hys h1
        have hy := h y (List.mem_cons_self y ys)
        linarith

theorem mem_zipWith {α β γ : Type} (f : α → β → γ) :
    ∀ (as : List α) (bs : List β), ∀ z ∈ List.zipWith f as bs,
      ∃ a ∈ as, ∃ b ∈ bs, z = f a b := by
  intro as
  induction as with
  | nil => intro bs z hz; simp at hz
  | cons a as ih =>
      intro bs z hz
      cases bs with
      | nil => simp at hz
      | cons b bs =>
          simp only [List.zipWith_cons_cons, List.mem_cons] at hz
          rcases hz with hz | hz
          · exact ⟨a, List.mem_cons_self a as, b, List.mem_cons_self b bs, hz⟩
          · obtain ⟨a', ha', b', hb', hz'⟩ := ih bs z hz
            exact ⟨a', List.mem_cons_of_mem a ha', b', List.mem_cons_of_mem b hb', hz'⟩

theorem next_deadlines_length (periods : List ℚ) (pc : List ℕ) :
    (next_deadlines periods pc).length = min periods.length pc.length := by
  unfold next_deadlines
  simp [List.length_zipWith]

theorem next_deadlines_getD (periods : List ℚ) (pc : List ℕ) (i : ℕ)
    (ha : i < periods.length) (hb : i < pc.length) :
    (next_deadlines periods pc).getD i 0 = periods.getD i 0 * (pc.getD i 0 : ℚ) := by
  unfold next_deadlines
  have hlen : i < (List.zipWith (fun p (c : ℕ) => p * (c : ℚ)) periods pc).length := by
    simp [List.length_zipWith]; omega
  rw [List.getD_eq_getElem _ _ hlen, List.getD_eq_getElem _ _ ha, List.getD_eq_getElem _ _ hb]
  simp [List.getElem_zipWith]

theorem getD_map_const {α β : Type} (l : List α) (c : β) (j : ℕ) (d : β)
    (h : j < l.length) : (l.map (fun _ => c)).getD j d = c := by
  rw [List.getD_eq_getElem _ _ (by rwa [List.length_map])]
  simp

/-! ## Lemmas about `duplicated_tasks` -/

theorem mem_insertAsc (x y : ℕ) (l : List ℕ) : x ∈ insertAsc y l ↔ x = y ∨ x ∈ l := by
  induction l with
  | nil => simp [insertAsc]
  | cons z zs ih =>
      simp only [insertAsc]
      split
      · simp
      · simp only [List.mem_cons, ih]
        tauto

theorem mem_sortAsc (x : ℕ) (l : List ℕ) : x ∈ sortAsc l ↔ x ∈ l := by
  induction l with
  | nil => simp [sortAsc]
  | cons y ys ih =>
      show x ∈ insertAsc y (sortAsc ys) ↔ _
      rw [mem_insertAsc, ih]
      simp [List.mem_cons]

theorem mem_dedupAsc (x : ℕ) (l : List ℕ) : x ∈ dedupAsc l ↔ x ∈ l := by
  induction l with
  | nil => simp [dedupAsc]
  | cons y ys ih =>
      cases ys with
      | nil => simp [dedupAsc]
      | cons z zs =>
          simp only [dedupAsc]
          split
          case isTrue h =>
            subst h
            rw [ih]
            constructor
            · intro hx; exact List.mem_cons_of_mem y hx
            · intro hx
              rcases List.mem_cons.mp hx with h1 | h1
              · exact h1 ▸ List.mem_cons_self _ _
              · exact h1
          case isFalse h => simp only [List.mem_cons] at ih ⊢; rw [ih]

theorem duplicated_tasks_iff (q : List QEntry) (d : ℕ) :
    d ∈ duplicated_tasks q ↔ 1 < (q.map (fun e => e.task)).count d := by
  unfold duplicated_tasks
  rw [List.mem_filter, mem_dedupAsc, mem_sortAsc]
  constructor
  · intro ⟨_, h⟩; exact of_decide_eq_true h
  · intro h
    refine ⟨List.count_pos_iff.mp (by omega), decide_eq_true h⟩

theorem duplicated_tasks_nil_nodup (q : List QEntry)
    (h : duplicated_tasks q = []) : (q.map (fun e => e.task)).Nodup := by
  rw [List.nodup_iff_count_le_one]
  intro a
  by_contra hc
  have h2 : 1 < (q.map (fun e => e.task)).count a := by omega
  have := (duplicated_tasks_iff q a).mpr h2
  rw [h] at this
  simp at this

/-! ## Lemmas about `build_queue` -/

theorem build_queue_mem (l : List (ℚ × ℚ)) : ∀ (i : ℕ), ∀ e ∈ build_queue i l,
    (i ≤ e.task ∧ e.task < i + l.length) ∧ ∃ pr ∈ l, e.pri = pr.1 ∧ e.rem = pr.2 := by
  induction l with
  | nil => intro i e he; simp [build_queue] at he
  | cons pr rest ih =>
      intro i e he
      obtain ⟨p1, p2⟩ := pr
      simp only [build_queue, List.mem_cons] at he
      rcases he with he | he
      · subst he
        exact ⟨⟨le_refl i, by simp⟩, ⟨(p1, p2), List.mem_cons_self _ _, rfl, rfl⟩⟩
      · obtain ⟨⟨h1, h2⟩, pr', hpr', hp⟩ := ih (i + 1) e he
        exact ⟨⟨by omega, by simp only [List.length_cons]; omega⟩,
               pr', List.mem_cons_of_mem _ hpr', hp⟩

theorem build_queue_map_task (l : List (ℚ × ℚ)) : ∀ i : ℕ,
    (build_queue i l).map (fun e => e.task) = List.range' i l.length := by
  induction l with
  | nil => intro i; simp [build_queue]
  | cons pr rest ih =>
      intro i
      obtain ⟨p1, p2⟩ := pr
      simp only [build_queue, List.map_cons, List.length_cons, List.range'_succ]
      rw [ih (i + 1)]

/-! ## Reachability and the loop -/

/-- The states at the top of the `while` loop, obtained from `s` by iterating
`engine_step` while the guard holds. -/
inductive Reaches (p : EngParams) : EngState → EngState → Prop where
  | refl (s : EngState) : Reaches p s s
  | next {s t u : EngState} (h : Reaches p s t) (hc : loop_cond p t = true)
      (hs : engine_step p t = .next u) : Reaches p s u

theorem Reaches.trans {p : EngParams} {s t u : EngState}
    (h1 : Reaches p s t) (h2 : Reaches p t u) : Reaches p s u := by
  induction h2 with
  | refl => exact h1
  | next h hc hs ih => exact Reaches.next ih hc hs

/-- A loop-top state of a run of the engine from the initial state. -/
def Reachable (p : EngParams) (s : EngState) : Prop :=
  Reaches p (init_state p) s

/-- The final state of `engine_run` is either a loop-top state, or the state
produced by the missed-deadline `break` out of a loop-top state. -/
theorem engine_run_cases (p : EngParams) :
    ∀ (fuel : ℕ) (s : EngState),
      Reaches p s (engine_run p fuel s).1 ∨
        ∃ t, Reaches p s t ∧ loop_cond p t = true ∧
          engine_step p t = .missed (engine_run p fuel s).1 := by
  intro fuel
  induction fuel with
  | zero => intro s; exact Or.inl (Reaches.refl s)
  | succ n ih =>
      intro s
      show (Reaches p s (engine_run p (n + 1) s).1 ∨ _)
      by_cases hc : loop_cond p s = true
      · cases hstep : engine_step p s with
        | next s' =>
            have hrun : engine_run p (n + 1) s = engine_run p n s' := by
              simp [engine_run, hc, hstep]
            rw [hrun]
            rcases ih s' with h | ⟨t, ht, htc, hts⟩
            · exact Or.inl ((Reaches.next (Reaches.refl s) hc hstep).trans h)
            · exact Or.inr ⟨t, (Reaches.next (Reaches.refl s) hc hstep).trans ht, htc, hts⟩
        | missed s' =>
            have hrun : engine_run p (n + 1) s = (s', true) := by
              simp [engine_run, hc, hstep]
            rw [hrun]
            exact Or.inr ⟨s, Reaches.refl s, hc, hstep⟩
      · have hrun : engine_run p (n + 1) s = (s, true) := by
          simp [engine_run, hc]
        rw [hrun]
        exact Or.inl (Reaches.refl s)

/-! ## The engine invariant -/

/-- Validity of the constructor arguments (spec section 4.A / 7), together
with the coupling the three constructors enforce: exactly the `CycleEDF`
subclass carries an invocation matrix. -/
structure EngValid (p : EngParams) : Prop where
  per : PerValid p.periods p.wc_exec_time
  inv : ∀ i, p.invocations = some i → InvValid p.periods i
  coupling : p.algo = Algo.ccedf ↔ p.invocations ≠ none

/-- The invariant maintained at every loop-top state of the preemptive engine
on a valid task set.  Fields guarded by `p.invocations = none` hold for the
RM/EDF instantiations, fields taking `p.invocations = some inv` for CC-EDF. -/
structure StInv (p : EngParams) (s : EngState) : Prop where
  pc_len : s.period_counter.length = p.periods.length
  ic_len : s.inv_counter.length = p.periods.length
  bc_len : s.bc_exec_time.length = p.wc_exec_time.length
  task_lt : ∀ e ∈ s.ready_queue, e.task < p.periods.length
  nodup : (s.ready_queue.map (fun e => e.task)).Nodup
  rem_nonneg : ∀ e ∈ s.ready_queue, 0 ≤ e.rem
  rem_pos : p.invocations = none → ∀ e ∈ s.ready_queue, 0 < e.rem
  bc_nonneg : ∀ b ∈ s.bc_exec_time, 0 ≤ b
  time_nonneg : 0 ≤ s.current_time
  time_le : ∀ j, j < p.periods.length →
    s.current_time ≤ p.periods.getD j 0 * (s.period_counter.getD j 0 : ℚ)
  pc_pos : ∀ j, j < p.periods.length → 1 ≤ s.period_counter.getD j 0
  rows_stop : ∀ r ∈ s.computed_results, r.stop ≤ s.current_time
  rows_startstop : ∀ r ∈ s.computed_results, r.start ≤ r.stop
  rows_strict : p.invocations = none → ∀ r ∈ s.computed_results, r.start < r.stop
  rows_chain : List.Chain' (fun a b => a.stop ≤ b.start) s.computed_results
  rows_merge : List.Chain' (fun a b => ¬(a.task = b.task ∧ a.stop = b.start))
    s.computed_results
  rows_tend : ∀ T, p.end_time = some T → ∀ r ∈ s.computed_results, r.start < T
  released_le : p.invocations = none → ∀ j, j < p.periods.length →
    p.periods.getD j 0 * ((s.period_counter.getD j 0 : ℚ) - 1) ≤ s.current_time
  cc_j2 : ∀ inv, p.invocations = some inv → ∀ j, j < p.periods.length →
    ∀ u, u < p.periods.length → s.inv_counter.getD u 0 < inv.length →
      p.periods.getD j 0 * ((s.period_counter.getD j 0 : ℚ) - 1) ≤
        p.periods.getD u 0 * (s.period_counter.getD u 0 : ℚ)
  cc_j3 : ∀ inv, p.invocations = some inv → ∀ i, i < p.periods.length →
    s.inv_counter.getD i 0 < inv.length →
      s.period_counter.getD i 0 ≤
        s.inv_counter.getD i 0 + (s.ready_queue.map (fun e => e.task)).count i + 1
  info_missed : s.dict_info.missed_task_num = none
  info_occ : s.dict_info.miss_occurance = none

theorem check_sched_missed (p : EngParams) (info : Info) :
    (check_schedulability p info).missed_task_num = info.missed_task_num ∧
      (check_schedulability p info).miss_occurance = info.miss_occurance := by
  unfold check_schedulability rm_check_schedulability edf_check_schedulability
    cc_check_schedulability
  cases p.algo
  · exact ⟨rfl, rfl⟩
  · exact ⟨rfl, rfl⟩
  · by_cases hcond :
      1 < sumQ (List.zipWith (fun c per => c / per) p.wc_exec_time p.periods)
    · simp only [if_pos hcond]
      exact ⟨trivial, trivial⟩
    · simp only [if_neg hcond]
      exact ⟨trivial, trivial⟩

theorem loop_cond_N_pos (p : EngParams) (s : EngState)
    (hic : s.inv_counter.length = p.periods.length) (hc : loop_cond p s = true) :
    0 < p.periods.length := by
  unfold loop_cond at hc
  obtain ⟨h1, _⟩ := Bool.and_eq_true _ _ |>.mp hc
  cases hni : p.num_invocations with
  | none => rw [hni] at h1; rw [← hic]; exact of_decide_eq_true h1
  | some k =>
      rw [hni] at h1
      obtain ⟨x, hx, _⟩ := List.any_eq_true.mp h1
      have : s.inv_counter ≠ [] := List.ne_nil_of_mem hx
      have : 0 < s.inv_counter.length := List.length_pos.mpr this
      omega

theorem loop_cond_time (p : EngParams) (s : EngState) (T : ℚ)
    (hT : p.end_time = some T) (hc : loop_cond p s = true) : s.current_time < T := by
  unfold loop_cond at hc
  obtain ⟨_, h2⟩ := Bool.and_eq_true _ _ |>.mp hc
  rw [hT] at h2
  exact of_decide_eq_true h2

theorem init_queue_cases (p : EngParams) :
    (p.algo = .ccedf ∧ initialize_ready_queue p =
        build_queue 0 (p.periods.zip ((p.invocations.getD []).getD 0 []))) ∨
    (p.algo ≠ .ccedf ∧ initialize_ready_queue p =
        build_queue 0 (p.periods.zip p.wc_exec_time)) := by
  unfold initialize_ready_queue
  cases p.algo with
  | rm => exact Or.inr ⟨by simp, rfl⟩
  | edf => exact Or.inr ⟨by simp, rfl⟩
  | ccedf => exact Or.inl ⟨rfl, rfl⟩

theorem init_queue_task_lt (p : EngParams) :
    ∀ e ∈ initialize_ready_queue p, e.task < p.periods.length := by
  intro e he
  rcases init_queue_cases p with ⟨_, hq⟩ | ⟨_, hq⟩ <;>
  · rw [hq] at he
    have h := (build_queue_mem _ 0 e he).1.2
    rw [List.length_zip] at h
    omega

theorem init_queue_nodup (p : EngParams) :
    ((initialize_ready_queue p).map (fun e => e.task)).Nodup := by
  rcases init_queue_cases p with ⟨_, hq⟩ | ⟨_, hq⟩ <;>
  · rw [hq, build_queue_map_task]
    exact List.nodup_range' _ _

/-- The invariant holds at the initial state of every valid task set. -/
theorem init_StInv (p : EngParams) (hv : EngValid p) : StInv p (init_state p) := by
  obtain ⟨⟨hlen, hper, hwc⟩, hinvv, _⟩ := hv
  have hpc : (init_state p).period_counter = p.periods.map (fun _ => 1) := rfl
  have hic : (init_state p).inv_counter = p.periods.map (fun _ => 0) := rfl
  have hrows : (init_state p).computed_results = [] := rfl
  have hct : (init_state p).current_time = 0 := rfl
  have hbc : (init_state p).bc_exec_time = p.wc_exec_time := rfl
  have hq : (init_state p).ready_queue = initialize_ready_queue p := rfl
  refine ⟨?_, ?_, ?_, ?_, ?_, ?_, ?_, ?_, ?_, ?_, ?_, ?_, ?_, ?_, ?_, ?_, ?_, ?_, ?_, ?_, ?_, ?_⟩
  · rw [hpc]; simp
  · rw [hic]; simp
  · rw [hbc]
  · rw [hq]; exact init_queue_task_lt p
  · rw [hq]; exact init_queue_nodup p
  · -- rem_nonneg
    rw [hq]
    intro e he
    rcases init_queue_cases p with ⟨_, hqc⟩ | ⟨_, hqc⟩
    · rw [hqc] at he
      obtain ⟨_, pr, hpr, _, hrem⟩ := build_queue_mem _ 0 e he
      have hsnd := (List.of_mem_zip hpr).2
      rw [hrem]
      cases hio : p.invocations with
      | none => rw [hio] at hsnd; simp at hsnd
      | some inv =>
          rw [hio] at hsnd
          cases inv with
          | nil => simp at hsnd
          | cons row rest =>
              have hrow := hinvv (row :: rest) hio row (List.mem_cons_self _ _)
              exact hrow.2 _ (by simpa using hsnd)
    · rw [hqc] at he
      obtain ⟨_, pr, hpr, _, hrem⟩ := build_queue_mem _ 0 e he
      have hsnd := (List.of_mem_zip hpr).2
      rw [hrem]
      exact le_of_lt (hwc _ hsnd)
  · -- rem_pos
    intro hio
    rw [hq]
    intro e he
    rcases init_queue_cases p with ⟨_, hqc⟩ | ⟨_, hqc⟩
    · rw [hqc, hio] at he
      simp [build_queue] at he
    · rw [hqc] at he
      obtain ⟨_, pr, hpr, _, hrem⟩ := build_queue_mem _ 0 e he
      have hsnd := (List.of_mem_zip hpr).2
      rw [hrem]
      exact hwc _ hsnd
  · rw [hbc]; intro b hb; exact le_of_lt (hwc b hb)
  · rw [hct]
  · -- time_le
    intro j hj
    rw [hct, hpc]
    rw [getD_map_const _ _ _ _ hj]
    have := hper _ (getD_mem p.periods j 0 hj)
    push_cast
    linarith
  · intro j hj; rw [hpc, getD_map_const _ _ _ _ hj]
  · rw [hrows]; intro r hr; simp at hr
  · rw [hrows]; intro r hr; simp at hr
  · rw [hrows]; intro _ r hr; simp at hr
  · rw [hrows]; exact List.chain'_nil
  · rw [hrows]; exact List.chain'_nil
  · rw [hrows]; intro T _ r hr; simp at hr
  · -- released_le
    intro _ j hj
    rw [hct, hpc, getD_map_const _ _ _ _ hj]
    push_cast
    simp
  · -- cc_j2
    intro inv _ j hj u hu _
    rw [hpc, getD_map_const _ _ _ _ hj, getD_map_const _ _ _ _ hu]
    have := hper _ (getD_mem p.periods u 0 hu)
    push_cast
    nlinarith [hper _ (getD_mem p.periods j 0 hj)]
  · -- cc_j3
    intro inv _ i hi _
    rw [hpc, hic, getD_map_const _ _ _ _ hi, getD_map_const _ _ _ _ hi]
    omega
  · exact (check_sched_missed p {}).1
  · exact (check_sched_missed p {}).2

/-! ## Facts about the inserted entries and the invocation bound -/

theorem nearest_entry_task (p : EngParams) (pc : List ℕ) (j : ℕ) :
    (nearest_entry p pc j).task = j := by
  unfold nearest_entry
  cases p.algo <;> rfl

theorem interrupting_entry_task (p : EngParams) (pc : List ℕ) (j : ℕ) :
    (interrupting_entry p pc j).task = j := by
  unfold interrupting_entry
  cases p.algo <;> rfl

theorem inv_getD_nonneg (periods : List ℚ) (inv : List (List ℚ))
    (hiv : InvValid periods inv) (r j : ℕ) : 0 ≤ (inv.getD r []).getD j 0 := by
  by_cases hr : r < inv.length
  · have hrow : inv.getD r [] ∈ inv := getD_mem _ _ _ hr
    by_cases hjr : j < (inv.getD r []).length
    · exact (hiv _ hrow).2 _ (getD_mem _ _ _ hjr)
    · rw [List.getD_eq_default _ _ (le_of_not_lt hjr)]
  · rw [List.getD_eq_default _ _ (le_of_not_lt hr)]
    simp

theorem opt_inv_getD_nonneg (p : EngParams) (hv : EngValid p) (r j : ℕ) :
    0 ≤ ((p.invocations.getD []).getD r []).getD j 0 := by
  cases hio : p.invocations with
  | none => simp
  | some inv =>
      have := hv.inv inv hio
      simpa using inv_getD_nonneg p.periods inv this r j

theorem nearest_entry_rem_nonneg (p : EngParams) (pc : List ℕ) (j : ℕ)
    (hv : EngValid p) (hj : j < p.periods.length) :
    0 ≤ (nearest_entry p pc j).rem := by
  unfold nearest_entry
  cases h : p.algo <;> simp only
  · exact le_of_lt (hv.per.2.2 _ (getD_mem _ _ _ (by rw [hv.per.1]; exact hj)))
  · exact le_of_lt (hv.per.2.2 _ (getD_mem _ _ _ (by rw [hv.per.1]; exact hj)))
  · exact opt_inv_getD_nonneg p hv _ j

theorem interrupting_entry_rem_nonneg (p : EngParams) (pc : List ℕ) (j : ℕ)
    (hv : EngValid p) (hj : j < p.periods.length) :
    0 ≤ (interrupting_entry p pc j).rem := by
  unfold interrupting_entry
  cases h : p.algo <;> simp only
  · exact le_of_lt (hv.per.2.2 _ (getD_mem _ _ _ (by rw [hv.per.1]; exact hj)))
  · exact le_of_lt (hv.per.2.2 _ (getD_mem _ _ _ (by rw [hv.per.1]; exact hj)))
  · exact opt_inv_getD_nonneg p hv _ j

theorem nearest_entry_rem_pos (p : EngParams) (pc : List ℕ) (j : ℕ)
    (hv : EngValid p) (hio : p.invocations = none) (hj : j < p.periods.length) :
    0 < (nearest_entry p pc j).rem := by
  have halgo : p.algo ≠ Algo.ccedf := by
    intro h
    exact (hv.coupling.mp h) hio
  unfold nearest_entry
  cases h : p.algo
  · exact hv.per.2.2 _ (getD_mem _ _ _ (by rw [hv.per.1]; exact hj))
  · exact hv.per.2.2 _ (getD_mem _ _ _ (by rw [hv.per.1]; exact hj))
  · exact absurd h halgo

theorem interrupting_entry_rem_pos (p : EngParams) (pc : List ℕ) (j : ℕ)
    (hv : EngValid p) (hio : p.invocations = none) (hj : j < p.periods.length) :
    0 < (interrupting_entry p pc j).rem := by
  have halgo : p.algo ≠ Algo.ccedf := by
    intro h
    exact (hv.coupling.mp h) hio
  unfold interrupting_entry
  cases h : p.algo
  · exact hv.per.2.2 _ (getD_mem _ _ _ (by rw [hv.per.1]; exact hj))
  · exact hv.per.2.2 _ (getD_mem _ _ _ (by rw [hv.per.1]; exact hj))
  · exact absurd h halgo

theorem num_invocations_none (p : EngParams) :
    p.num_invocations = none ↔ p.invocations = none := by
  unfold EngParams.num_invocations
  cases p.invocations <;> simp

theorem below_num_of_inv_none (p : EngParams) (ic : List ℕ) (j : ℕ)
    (h : p.invocations = none) : below_num_invocations p ic j = true := by
  unfold below_num_invocations
  rw [(num_invocations_none p).mpr h]

theorem below_num_some_iff (p : EngParams) (ic : List ℕ) (j : ℕ) (inv : List (List ℚ))
    (h : p.invocations = some inv) :
    below_num_invocations p ic j = true ↔ ic.getD j 0 < inv.length := by
  unfold below_num_invocations EngParams.num_invocations
  rw [h]
  simp

/-! ## Preservation of the invariant: idle branch -/

theorem idle_branch_def (p : EngParams) (s : EngState) (nd : List ℚ) :
    idle_branch p s nd =
      if below_num_invocations p s.inv_counter (argminQ nd) = true then
        { s with current_time := nd.getD (argminQ nd) 0,
                 ready_queue := s.ready_queue ++ [nearest_entry p s.period_counter (argminQ nd)],
                 period_counter := s.period_counter.set (argminQ nd)
                   (s.period_counter.getD (argminQ nd) 0 + 1) }
      else
        { s with period_counter := s.period_counter.set (argminQ nd)
                   (s.period_counter.getD (argminQ nd) 0 + 1) } := by
  unfold idle_branch
  by_cases hb : below_num_invocations p s.inv_counter (argminQ nd) = true
  · simp [hb]
  · simp [hb]

theorem idle_StInv (p : EngParams) (s : EngState) (hv : EngValid p) (hinv : StInv p s)
    (hc : loop_cond p s = true) (hq : s.ready_queue = []) :
    StInv p (idle_branch p s (next_deadlines p.periods s.period_counter)) := by
  have hNpos : 0 < p.periods.length := loop_cond_N_pos p s hinv.ic_len hc
  set nd := next_deadlines p.periods s.period_counter with hnd
  have hndlen : nd.length = p.periods.length := by
    rw [hnd, next_deadlines_length, hinv.pc_len]
    exact Nat.min_self _
  set j := argminQ nd with hjdef
  have hjN : j < p.periods.length := by
    have := argminQ_lt_length nd (by
      intro hnil
      rw [hnil] at hndlen
      simp at hndlen
      omega)
    omega
  have hjpc : j < s.period_counter.length := by rw [hinv.pc_len]; exact hjN
  have hnr : nd.getD j 0 = p.periods.getD j 0 * (s.period_counter.getD j 0 : ℚ) :=
    next_deadlines_getD _ _ j hjN hjpc
  have hcur_le : s.current_time ≤ nd.getD j 0 := by
    rw [hnr]; exact hinv.time_le j hjN
  have hmin : ∀ i, i < p.periods.length →
      nd.getD j 0 ≤ p.periods.getD i 0 * (s.period_counter.getD i 0 : ℚ) := by
    intro i hi
    have h := argminQ_min nd i (by omega)
    rwa [next_deadlines_getD _ _ i hi (by rw [hinv.pc_len]; exact hi)] at h
  have hPjpos : 0 < p.periods.getD j 0 :=
    hv.per.2.1 _ (getD_mem _ _ _ hjN)
  rw [idle_branch_def]
  by_cases hbn : below_num_invocations p s.inv_counter j = true
  · rw [if_pos hbn]
    refine ⟨?_, hinv.ic_len, hinv.bc_len, ?_, ?_, ?_, ?_, hinv.bc_nonneg, ?_, ?_, ?_,
            ?_, ?_, ?_, ?_, ?_, ?_, ?_, ?_, ?_, hinv.info_missed, hinv.info_occ⟩
    · simpa using hinv.pc_len
    · -- task_lt
      intro e he
      simp only [hq, List.nil_append, List.mem_singleton] at he
      rw [he, nearest_entry_task]
      exact hjN
    · -- nodup
      simp [hq]
    · -- rem_nonneg
      intro e he
      simp only [hq, List.nil_append, List.mem_singleton] at he
      rw [he]
      exact nearest_entry_rem_nonneg p _ j hv hjN
    · -- rem_pos
      intro hio e he
      simp only [hq, List.nil_append, List.mem_singleton] at he
      rw [he]
      exact nearest_entry_rem_pos p _ j hv hio hjN
    · -- time_nonneg
      exact le_trans hinv.time_nonneg hcur_le
    · -- time_le
      intro i hi
      by_cases hij : j = i
      · subst hij
        rw [getD_set_self _ _ _ _ hjpc, hnr]
        push_cast
        nlinarith
      · rw [getD_set_ne _ _ _ _ _ hij]
        exact hmin i hi
    · -- pc_pos
      intro i hi
      by_cases hij : j = i
      · subst hij; rw [getD_set_self _ _ _ _ hjpc]; omega
      · rw [getD_set_ne _ _ _ _ _ hij]; exact hinv.pc_pos i hi
    · -- rows_stop
      intro r hr
      exact le_trans (hinv.rows_stop r hr) hcur_le
    · exact hinv.rows_startstop
    · exact hinv.rows_strict
    · exact hinv.rows_chain
    · exact hinv.rows_merge
    · exact hinv.rows_tend
    · -- released_le
      intro hio i hi
      by_cases hij : j = i
      · subst hij
        rw [getD_set_self _ _ _ _ hjpc, hnr]
        push_cast
        nlinarith
      · rw [getD_set_ne _ _ _ _ _ hij]
        exact le_trans (hinv.released_le hio i hi) hcur_le
    · -- cc_j2
      intro inv hio i hi u hu hiu
      have hRHS : p.periods.getD u 0 * ((s.period_counter.getD u 0 : ℚ)) ≤
          p.periods.getD u 0 * (((s.period_counter.set j (s.period_counter.getD j 0 + 1)).getD u 0 : ℚ)) := by
        have hPu : 0 < p.periods.getD u 0 := hv.per.2.1 _ (getD_mem _ _ _ hu)
        by_cases hju : j = u
        · subst hju
          rw [getD_set_self _ _ _ _ hjpc]
          push_cast
          nlinarith
        · rw [getD_set_ne _ _ _ _ _ hju]
      by_cases hij : j = i
      · subst hij
        rw [getD_set_self _ _ _ _ hjpc]
        refine le_trans ?_ hRHS
        have := hmin u hu
        rw [hnr] at this
        push_cast
        nlinarith
      · rw [getD_set_ne _ _ _ _ _ hij]
        exact le_trans (hinv.cc_j2 inv hio i hi u hu hiu) hRHS
    · -- cc_j3
      intro inv hio i hi hic
      have hic2 : s.inv_counter.getD i 0 < inv.length := hic
      show (s.period_counter.set j (s.period_counter.getD j 0 + 1)).getD i 0 ≤
        s.inv_counter.getD i 0 +
          (((s.ready_queue ++ [nearest_entry p s.period_counter j]).map
            (fun e => e.task)).count i) + 1
      have hcount0 : ((s.ready_queue.map (fun e => e.task)).count i) = 0 := by
        rw [hq]; rfl
      have hcount1 : (((s.ready_queue ++ [nearest_entry p s.period_counter j]).map
          (fun e => e.task)).count i) = if j = i then 1 else 0 := by
        rw [hq, List.nil_append]
        simp [nearest_entry_task, List.count_cons, List.count_nil]
      by_cases hij : j = i
      · subst hij
        rw [getD_set_self _ _ _ _ hjpc, hcount1, if_pos rfl]
        have hold := hinv.cc_j3 inv hio j hjN hic2
        rw [hcount0] at hold
        omega
      · rw [getD_set_ne _ _ _ _ _ hij, hcount1, if_neg hij]
        have hold := hinv.cc_j3 inv hio i hi hic2
        rw [hcount0] at hold
        omega
  · rw [if_neg hbn]
    have hio : ∃ inv, p.invocations = some inv := by
      cases h : p.invocations with
      | none => exact absurd (below_num_of_inv_none p _ j h) hbn
      | some inv => exact ⟨inv, rfl⟩
    refine ⟨?_, hinv.ic_len, hinv.bc_len, hinv.task_lt, hinv.nodup, hinv.rem_nonneg,
            hinv.rem_pos, hinv.bc_nonneg, hinv.time_nonneg, ?_, ?_,
            hinv.rows_stop, hinv.rows_startstop, hinv.rows_strict, hinv.rows_chain,
            hinv.rows_merge, hinv.rows_tend, ?_, ?_, ?_, hinv.info_missed, hinv.info_occ⟩
    · simpa using hinv.pc_len
    · -- time_le
      intro i hi
      by_cases hij : j = i
      · subst hij
        rw [getD_set_self _ _ _ _ hjpc]
        refine le_trans (hinv.time_le j hjN) ?_
        push_cast
        nlinarith
      · rw [getD_set_ne _ _ _ _ _ hij]
        exact hinv.time_le i hi
    · -- pc_pos
      intro i hi
      by_cases hij : j = i
      · subst hij; rw [getD_set_self _ _ _ _ hjpc]; omega
      · rw [getD_set_ne _ _ _ _ _ hij]; exact hinv.pc_pos i hi
    · -- released_le
      intro hione
      obtain ⟨inv, hisome⟩ := hio
      rw [hione] at hisome
      simp at hisome
    · -- cc_j2
      intro inv hisome i hi u hu hiu
      have hRHS : p.periods.getD u 0 * ((s.period_counter.getD u 0 : ℚ)) ≤
          p.periods.getD u 0 * (((s.period_counter.set j (s.period_counter.getD j 0 + 1)).getD u 0 : ℚ)) := by
        have hPu : 0 < p.periods.getD u 0 := hv.per.2.1 _ (getD_mem _ _ _ hu)
        by_cases hju : j = u
        · subst hju
          rw [getD_set_self _ _ _ _ hjpc]
          push_cast
          nlinarith
        · rw [getD_set_ne _ _ _ _ _ hju]
      by_cases hij : j = i
      · subst hij
        rw [getD_set_self _ _ _ _ hjpc]
        refine le_trans ?_ hRHS
        have := hmin u hu
        rw [hnr] at this
        push_cast
        nlinarith
      · rw [getD_set_ne _ _ _ _ _ hij]
        exact le_trans (hinv.cc_j2 inv hisome i hi u hu hiu) hRHS
    · -- cc_j3
      intro inv hisome i hi hic
      have hic2 : s.inv_counter.getD i 0 < inv.length := hic
      show (s.period_counter.set j (s.period_counter.getD j 0 + 1)).getD i 0 ≤
        s.inv_counter.getD i 0 + ((s.ready_queue.map (fun e => e.task)).count i) + 1
      by_cases hij : j = i
      · subst hij
        exfalso
        have := (below_num_some_iff p s.inv_counter j inv hisome).mpr hic2
        exact hbn this
      · rw [getD_set_ne _ _ _ _ _ hij]
        exact hinv.cc_j3 inv hisome i hi hic2

/-! ## Preservation of the invariant: completion branch -/

theorem getLast?_mem' {α : Type} (l : List α) (a : α) (h : l.getLast? = some a) :
    a ∈ l := by
  induction l with
  | nil => simp at h
  | cons x xs ih =>
      cases xs with
      | nil => simp at h; simp [h]
      | cons y ys =>
          rw [List.getLast?_cons_cons] at h
          exact List.mem_cons_of_mem x (ih h)

/-- Where the bc state left by `cc_compute_frequency` draws its entries from. -/
theorem cc_bc_mem (wc periods bc : List ℚ) (rem : ℚ) (k : ℕ) :
    ∀ b ∈ (cc_compute_frequency wc periods bc rem k).2.2,
      b ∈ bc ∨ b = wc.getD k 0 ∨ b = rem ∨ b = bc.getD k 0 := by
  intro b hb
  simp only [cc_compute_frequency] at hb
  split at hb
  · rcases List.mem_or_eq_of_mem_set hb with h | h
    · rcases List.mem_or_eq_of_mem_set h with h' | h'
      · exact Or.inl h'
      · exact Or.inr (Or.inl h')
    · exact Or.inr (Or.inr (Or.inl h))
  · rcases List.mem_or_eq_of_mem_set hb with h | h
    · rcases List.mem_or_eq_of_mem_set h with h' | h'
      · exact Or.inl h'
      · exact Or.inr (Or.inl h')
    · exact Or.inr (Or.inr (Or.inr h))

theorem cc_bc_len (wc periods bc : List ℚ) (rem : ℚ) (k : ℕ) :
    (cc_compute_frequency wc periods bc rem k).2.2.length = bc.length := by
  simp only [cc_compute_frequency]
  split <;> simp [List.length_set]

/-- The CC-EDF frequency is positive on valid data (the temporarily-reset
entry `wc_exec_time[k]` contributes a positive term). -/
theorem cc_freq_pos (wc periods bc : List ℚ) (rem : ℚ) (k : ℕ)
    (hlen : wc.length = periods.length) (hbclen : bc.length = wc.length)
    (hper : ∀ x ∈ periods, 0 < x) (hwc : ∀ x ∈ wc, 0 < x)
    (hbc : ∀ b ∈ bc, 0 ≤ b) (hk : k < periods.length) :
    0 < (cc_compute_frequency wc periods bc rem k).2.1 := by
  have hbc1nn : ∀ b ∈ bc.set k (wc.getD k 0), 0 ≤ b := by
    intro b hb
    rcases List.mem_or_eq_of_mem_set hb with h | h
    · exact hbc b h
    · rw [h]
      exact le_of_lt (hwc _ (getD_mem _ _ _ (by omega)))
  have hzl_nonneg : ∀ z ∈ List.zipWith (fun b p => b / p) (bc.set k (wc.getD k 0)) periods,
      0 ≤ z := by
    intro z hz
    obtain ⟨b, hb, per, hper', hz'⟩ := mem_zipWith _ _ _ z hz
    rw [hz']
    exact div_nonneg (hbc1nn b hb) (le_of_lt (hper per hper'))
  have hzk : k < (List.zipWith (fun b p => b / p) (bc.set k (wc.getD k 0)) periods).length := by
    rw [List.length_zipWith, List.length_set]
    omega
  have hzval : (List.zipWith (fun b p => b / p) (bc.set k (wc.getD k 0)) periods).getD k 0 =
      (bc.set k (wc.getD k 0)).getD k 0 / periods.getD k 0 := by
    rw [List.getD_eq_getElem _ _ hzk,
        List.getD_eq_getElem _ _ (show k < (bc.set k (wc.getD k 0)).length by
          rw [List.length_set]; omega),
        List.getD_eq_getElem _ _ hk]
    exact List.getElem_zipWith
  have hpos : 0 < (List.zipWith (fun b p => b / p) (bc.set k (wc.getD k 0)) periods).getD k 0 := by
    rw [hzval, getD_set_self _ _ _ _ (by omega)]
    exact div_pos (hwc _ (getD_mem _ _ _ (by omega))) (hper _ (getD_mem _ _ _ hk))
  have hsum : 0 < sumQ (List.zipWith (fun b p => b / p) (bc.set k (wc.getD k 0)) periods) :=
    sumQ_pos _ hzl_nonneg _ (getD_mem _ _ _ hzk) hpos
  simp only [cc_compute_frequency]
  split
  · exact one_pos
  · exact hsum

/-- The bc state after `_compute_frequency` keeps nonnegative entries
and its length. -/
theorem compute_frequency_bc (p : EngParams) (bc : List ℚ) (rem : ℚ) (k : ℕ)
    (hwc : ∀ x ∈ p.wc_exec_time, 0 < x) (hbc : ∀ b ∈ bc, 0 ≤ b) (hrem : 0 ≤ rem) :
    (∀ b ∈ (compute_frequency p bc rem k).2.2, 0 ≤ b) ∧
      (compute_frequency p bc rem k).2.2.length = bc.length := by
  unfold compute_frequency
  cases p.algo with
  | rm => exact ⟨hbc, rfl⟩
  | edf => exact ⟨hbc, rfl⟩
  | ccedf =>
      constructor
      · intro b hb
        have hwcD : 0 ≤ p.wc_exec_time.getD k 0 := by
          by_cases hk : k < p.wc_exec_time.length
          · exact le_of_lt (hwc _ (getD_mem _ _ _ hk))
          · rw [List.getD_eq_default _ _ (le_of_not_lt hk)]
        have hpriorD : 0 ≤ bc.getD k 0 := by
          by_cases hk : k < bc.length
          · exact hbc _ (getD_mem _ _ _ hk)
          · rw [List.getD_eq_default _ _ (le_of_not_lt hk)]
        rcases cc_bc_mem p.wc_exec_time p.periods bc rem k b hb with h | h | h | h
        · exact hbc b h
        · rw [h]; exact hwcD
        · rw [h]; exact hrem
        · rw [h]; exact hpriorD
      · exact cc_bc_len p.wc_exec_time p.periods bc rem k

/-- The execution time returned by `_compute_frequency` is nonnegative on
valid data. -/
theorem compute_frequency_exec_nonneg (p : EngParams) (bc : List ℚ) (rem : ℚ) (k : ℕ)
    (hv : EngValid p) (hbc : ∀ b ∈ bc, 0 ≤ b)
    (hbclen : bc.length = p.wc_exec_time.length)
    (hk : k < p.periods.length) (hrem : 0 ≤ rem) :
    0 ≤ (compute_frequency p bc rem k).1 := by
  unfold compute_frequency
  cases halgo : p.algo with
  | rm => exact hrem
  | edf => exact hrem
  | ccedf =>
      have hfreq := cc_freq_pos p.wc_exec_time p.periods bc rem k hv.per.1
        (by rw [hbclen]) hv.per.2.1 hv.per.2.2 hbc hk
      show 0 ≤ (cc_compute_frequency p.wc_exec_time p.periods bc rem k).1
      simp only [cc_compute_frequency] at hfreq ⊢
      exact div_nonneg hrem (le_of_lt hfreq)

/-- With no invocation matrix (RM/EDF) the execution time equals the remaining
time and the frequency is 1. -/
theorem compute_frequency_no_inv (p : EngParams) (bc : List ℚ) (rem : ℚ) (k : ℕ)
    (hv : EngValid p) (hio : p.invocations = none) :
    compute_frequency p bc rem k = (rem, 1, bc) := by
  have halgo : p.algo ≠ Algo.ccedf := fun h => (hv.coupling.mp h) hio
  unfold compute_frequency
  cases h : p.algo
  · rfl
  · rfl
  · exact absurd h halgo

theorem completion_StInv (p : EngParams) (s : EngState) (hv : EngValid p)
    (hinv : StInv p s) (hc : loop_cond p s = true) (e : QEntry) (q' : List QEntry)
    (hget : get_task p.wc_exec_time s.ready_queue = some (e, q'))
    (tet freq : ℚ) (bc' : List ℚ)
    (hcf : compute_frequency p s.bc_exec_time e.rem e.task = (tet - s.current_time, freq, bc'))
    (hall : ∀ i, i < p.periods.length →
      tet < p.periods.getD i 0 * (s.period_counter.getD i 0 : ℚ)) :
    StInv p (completion_branch s q' e.task tet freq bc') := by
  have hperm : s.ready_queue.Perm (e :: q') := get_task_perm _ _ _ _ hget
  have hmem : e ∈ s.ready_queue := get_task_mem _ _ _ _ hget
  have hsub : ∀ x ∈ q', x ∈ s.ready_queue := get_task_sub_mem _ _ _ _ hget
  have hek : e.task < p.periods.length := hinv.task_lt e hmem
  have hrem : 0 ≤ e.rem := hinv.rem_nonneg e hmem
  have hexec : 0 ≤ tet - s.current_time := by
    have h := compute_frequency_exec_nonneg p s.bc_exec_time e.rem e.task hv
      hinv.bc_nonneg hinv.bc_len hek hrem
    rw [hcf] at h
    exact h
  have hct : s.current_time ≤ tet := by linarith
  have hmapperm : (s.ready_queue.map (fun x => x.task)).Perm
      (e.task :: q'.map (fun x => x.task)) := by
    have := hperm.map (fun x => x.task)
    simpa using this
  have hbc' := compute_frequency_bc p s.bc_exec_time e.rem e.task hv.per.2.2
    hinv.bc_nonneg hrem
  rw [hcf] at hbc'
  refine ⟨hinv.pc_len, ?_, ?_, ?_, ?_, ?_, ?_, ?_, ?_, ?_, hinv.pc_pos,
          ?_, ?_, ?_, ?_, ?_, ?_, ?_, ?_, ?_, hinv.info_missed, hinv.info_occ⟩
  · -- ic_len
    show (s.inv_counter.set e.task (s.inv_counter.getD e.task 0 + 1)).length = _
    rw [List.length_set]
    exact hinv.ic_len
  · -- bc_len
    show bc'.length = _
    rw [hbc'.2]
    exact hinv.bc_len
  · -- task_lt
    intro x hx
    exact hinv.task_lt x (hsub x hx)
  · -- nodup
    have := hmapperm.nodup hinv.nodup
    exact (List.nodup_cons.mp this).2
  · -- rem_nonneg
    intro x hx
    exact hinv.rem_nonneg x (hsub x hx)
  · -- rem_pos
    intro hio x hx
    exact hinv.rem_pos hio x (hsub x hx)
  · -- bc_nonneg
    exact hbc'.1
  · -- time_nonneg
    exact le_trans hinv.time_nonneg hct
  · -- time_le
    intro i hi
    exact le_of_lt (hall i hi)
  · -- rows_stop
    intro r hr
    show r.stop ≤ tet
    rcases icr_mem _ _ r hr with h | h | ⟨old, hold, h⟩
    · exact le_trans (hinv.rows_stop r h) hct
    · rw [h]
    · rw [h]
  · -- rows_startstop
    intro r hr
    rcases icr_mem _ _ r hr with h | h | ⟨old, hold, h⟩
    · exact hinv.rows_startstop r h
    · rw [h]; exact hct
    · rw [h]
      show old.start ≤ tet
      exact le_trans (hinv.rows_startstop old hold)
        (le_trans (hinv.rows_stop old hold) hct)
  · -- rows_strict
    intro hio r hr
    have hcfni := compute_frequency_no_inv p s.bc_exec_time e.rem e.task hv hio
    rw [hcf] at hcfni
    have hrempos : 0 < e.rem := hinv.rem_pos hio e hmem
    have htlt : s.current_time < tet := by
      have h1 : tet - s.current_time = e.rem := congrArg Prod.fst hcfni
      linarith
    rcases icr_mem _ _ r hr with h | h | ⟨old, hold, h⟩
    · exact hinv.rows_strict hio r h
    · rw [h]; exact htlt
    · rw [h]
      show old.start < tet
      exact lt_of_le_of_lt (le_trans (hinv.rows_startstop old hold)
        (hinv.rows_stop old hold)) htlt
  · -- rows_chain
    refine icr_chain _ ?_ _ _ hinv.rows_chain ?_
    · intro a b b' hs _ h
      show a.stop ≤ b'.start
      rw [hs]
      exact h
    · intro l hl _
      show l.stop ≤ s.current_time
      exact hinv.rows_stop l (getLast?_mem' _ _ hl)
  · -- rows_merge
    refine icr_chain _ ?_ _ _ hinv.rows_merge ?_
    · intro a b b' hs ht h
      intro ⟨h1, h2⟩
      exact h ⟨ht ▸ h1, hs ▸ h2⟩
    · intro l _ hcond
      exact hcond
  · -- rows_tend
    intro T hT r hr
    have hcurT : s.current_time < T := loop_cond_time p s T hT hc
    rcases icr_mem _ _ r hr with h | h | ⟨old, hold, h⟩
    · exact hinv.rows_tend T hT r h
    · rw [h]; exact hcurT
    · rw [h]
      show old.start < T
      exact hinv.rows_tend T hT old hold
  · -- released_le
    intro hio i hi
    exact le_trans (hinv.released_le hio i hi) hct
  · -- cc_j2
    intro inv hio i hi u hu hiu
    have hic_le : s.inv_counter.getD u 0 ≤
        (s.inv_counter.set e.task (s.inv_counter.getD e.task 0 + 1)).getD u 0 := by
      by_cases heu : e.task = u
      · subst heu
        rw [getD_set_self _ _ _ _ (by rw [hinv.ic_len]; exact hu)]
        omega
      · rw [getD_set_ne _ _ _ _ _ heu]
    have hiu' : s.inv_counter.getD u 0 < inv.length := by
      have : (s.inv_counter.set e.task (s.inv_counter.getD e.task 0 + 1)).getD u 0 <
          inv.length := hiu
      omega
    exact hinv.cc_j2 inv hio i hi u hu hiu'
  · -- cc_j3
    intro inv hio i hi hic
    have hcq : (s.ready_queue.map (fun x => x.task)).count i =
        (q'.map (fun x => x.task)).count i + (if e.task = i then 1 else 0) := by
      rw [hmapperm.count_eq i]
      rw [List.count_cons]
      by_cases hei : e.task = i
      · simp [hei]
      · simp [hei]
    by_cases hei : e.task = i
    · subst hei
      have hicnew : (s.inv_counter.set e.task (s.inv_counter.getD e.task 0 + 1)).getD e.task 0 =
          s.inv_counter.getD e.task 0 + 1 :=
        getD_set_self _ _ _ _ (by rw [hinv.ic_len]; exact hi)
      have hic2 : s.inv_counter.getD e.task 0 < inv.length := by
        have h2 : (s.inv_counter.set e.task (s.inv_counter.getD e.task 0 + 1)).getD e.task 0 <
            inv.length := hic
        omega
      have hold := hinv.cc_j3 inv hio e.task hi hic2
      show s.period_counter.getD e.task 0 ≤
        (s.inv_counter.set e.task (s.inv_counter.getD e.task 0 + 1)).getD e.task 0 +
          (q'.map (fun x => x.task)).count e.task + 1
      rw [hicnew]
      rw [hcq, if_pos rfl] at hold
      omega
    · have hicnew : (s.inv_counter.set e.task (s.inv_counter.getD e.task 0 + 1)).getD i 0 =
          s.inv_counter.getD i 0 := getD_set_ne _ _ _ _ _ hei
      have hic2 : s.inv_counter.getD i 0 < inv.length := by
        have h2 : (s.inv_counter.set e.task (s.inv_counter.getD e.task 0 + 1)).getD i 0 <
            inv.length := hic
        omega
      have hold := hinv.cc_j3 inv hio i hi hic2
      show s.period_counter.getD i 0 ≤
        (s.inv_counter.set e.task (s.inv_counter.getD e.task 0 + 1)).getD i 0 +
          (q'.map (fun x => x.task)).count i + 1
      rw [hicnew]
      rw [hcq, if_neg hei] at hold
      omega

/-! ## Preservation of the invariant: preemption branch -/

theorem preempt_post (p : EngParams) (s : EngState) (hv : EngValid p) (hinv : StInv p s)
    (hc : loop_cond p s = true) (e : QEntry) (q' : List QEntry)
    (hget : get_task p.wc_exec_time s.ready_queue = some (e, q'))
    (tet freq : ℚ) (bc' : List ℚ)
    (hcf : compute_frequency p s.bc_exec_time e.rem e.task = (tet - s.current_time, freq, bc'))
    (flag : Bool) (s' : EngState)
    (hpb : preempt_branch p s (next_deadlines p.periods s.period_counter) q' e tet freq bc'
      = (flag, s')) :
    (flag = false → StInv p s') ∧
    (∀ r ∈ s'.computed_results, r.stop ≤ s'.current_time) ∧
    s.current_time ≤ s'.current_time ∧
    (flag = true →
      ∃ d, d < p.periods.length ∧
        1 < ((s'.ready_queue.map (fun x => x.task)).count d) ∧
        (∀ d', 1 < ((s'.ready_queue.map (fun x => x.task)).count d') → d' = d) ∧
        s'.dict_info.missed_task_num = some ((d : ℚ) + 1) ∧
        s'.dict_info.miss_occurance = some s'.current_time) := by
  have hperm : s.ready_queue.Perm (e :: q') := get_task_perm _ _ _ _ hget
  have hmem : e ∈ s.ready_queue := get_task_mem _ _ _ _ hget
  have hsub : ∀ x ∈ q', x ∈ s.ready_queue := get_task_sub_mem _ _ _ _ hget
  have hek : e.task < p.periods.length := hinv.task_lt e hmem
  have hrem : 0 ≤ e.rem := hinv.rem_nonneg e hmem
  have hmapperm : (s.ready_queue.map (fun x => x.task)).Perm
      (e.task :: q'.map (fun x => x.task)) := by
    have := hperm.map (fun x => x.task)
    simpa using this
  have hmapnodup := hmapperm.nodup hinv.nodup
  have hq'nodup : (q'.map (fun x => x.task)).Nodup := (List.nodup_cons.mp hmapnodup).2
  have hq'count : ∀ i, (q'.map (fun x => x.task)).count i ≤ 1 :=
    List.nodup_iff_count_le_one.mp hq'nodup
  have hq'e : (q'.map (fun x => x.task)).count e.task = 0 :=
    List.count_eq_zero.mpr (List.nodup_cons.mp hmapnodup).1
  have hcnt_q : ∀ i, ((s.ready_queue.map (fun x => x.task)).count i) =
      (q'.map (fun x => x.task)).count i + (if e.task = i then 1 else 0) := by
    intro i
    rw [hmapperm.count_eq i, List.count_cons]
    by_cases hei : e.task = i <;> simp [hei]
  have hbc' := compute_frequency_bc p s.bc_exec_time e.rem e.task hv.per.2.2
    hinv.bc_nonneg hrem
  rw [hcf] at hbc'
  have hbc'nn : ∀ b ∈ bc', 0 ≤ b := hbc'.1
  have hbc'len : bc'.length = s.bc_exec_time.length := hbc'.2
  have hNpos : 0 < p.periods.length := loop_cond_N_pos p s hinv.ic_len hc
  set nd := next_deadlines p.periods s.period_counter with hnddef
  have hndlen : nd.length = p.periods.length := by
    rw [hnddef, next_deadlines_length, hinv.pc_len]
    exact Nat.min_self _
  set j := argminQ nd with hjdef
  have hjN : j < p.periods.length := by
    have := argminQ_lt_length nd (by
      intro hnil
      rw [hnil] at hndlen
      simp at hndlen
      omega)
    omega
  have hjpc : j < s.period_counter.length := by rw [hinv.pc_len]; exact hjN
  set t_rel := nd.getD j 0 with htrdef
  have htrel : t_rel = p.periods.getD j 0 * (s.period_counter.getD j 0 : ℚ) := by
    rw [htrdef, hnddef]
    exact next_deadlines_getD _ _ j hjN hjpc
  have hcur_le : s.current_time ≤ t_rel := by
    rw [htrel]; exact hinv.time_le j hjN
  have hmin : ∀ i, i < p.periods.length →
      t_rel ≤ p.periods.getD i 0 * (s.period_counter.getD i 0 : ℚ) := by
    intro i hi
    have h := argminQ_min nd i (by omega)
    rw [htrdef]
    rwa [hnddef, next_deadlines_getD _ _ i hi (by rw [hinv.pc_len]; exact hi)] at h
  have hPjpos : 0 < p.periods.getD j 0 := hv.per.2.1 _ (getD_mem _ _ _ hjN)
  set rre := (tet - t_rel) * freq with hrredef
  set ie := interrupting_entry p s.period_counter j with hiedef
  set q1 := (if below_num_invocations p s.inv_counter j = true then q' ++ [ie] else q')
    with hq1def
  set q2 := (if 0 < rre then q1 ++ [(⟨e.task, e.pri, rre⟩ : QEntry)] else q1) with hq2def
  set ic1 := (if 0 < rre then s.inv_counter
              else s.inv_counter.set e.task (s.inv_counter.getD e.task 0 + 1)) with hic1def
  set res1 := (if s.current_time ≠ t_rel then
      insert_computed_results s.computed_results ⟨e.task, s.current_time, t_rel, freq⟩
    else s.computed_results) with hres1def
  set pc1 := s.period_counter.set j (s.period_counter.getD j 0 + 1) with hpc1def
  set dm := check_missed_deadline q2 t_rel s.dict_info with hdmdef
  have heq : (flag, s') = (dm.1,
      { ready_queue := q2, computed_results := res1, dict_info := dm.2,
        period_counter := pc1, inv_counter := ic1, current_time := t_rel,
        bc_exec_time := bc' }) := by
    rw [← hpb]
    rfl
  have hflag_eq : flag = dm.1 := congrArg Prod.fst heq
  have hs'eq : s' =
      ({ ready_queue := q2, computed_results := res1, dict_info := dm.2,
         period_counter := pc1, inv_counter := ic1, current_time := t_rel,
         bc_exec_time := bc' } : EngState) := congrArg Prod.snd heq
  subst hs'eq
  -- queue membership facts
  have hq1mem : ∀ x ∈ q1, x ∈ q' ∨ x = ie := by
    rw [hq1def]
    split
    · intro x hx
      rcases List.mem_append.mp hx with h | h
      · exact Or.inl h
      · exact Or.inr (by simpa using h)
    · intro x hx
      exact Or.inl hx
  have hq2mem : ∀ x ∈ q2, (x ∈ q' ∨ x = ie) ∨ (x = ⟨e.task, e.pri, rre⟩ ∧ 0 < rre) := by
    rw [hq2def]
    split
    case isTrue hpos =>
      intro x hx
      rcases List.mem_append.mp hx with h | h
      · exact Or.inl (hq1mem x h)
      · exact Or.inr ⟨by simpa using h, hpos⟩
    case isFalse hpos =>
      intro x hx
      exact Or.inl (hq1mem x hx)
  -- count facts
  have hcnt1T : below_num_invocations p s.inv_counter j = true →
      ∀ i, ((q1.map (fun x => x.task)).count i) =
        (q'.map (fun x => x.task)).count i + (if j = i then 1 else 0) := by
    intro hbn i
    rw [hq1def, if_pos hbn]
    rw [List.map_append, List.count_append]
    congr 1
    show (List.count i [ie.task]) = _
    rw [hiedef, interrupting_entry_task]
    by_cases hji : j = i <;> simp [List.count_cons, hji]
  have hcnt1F : below_num_invocations p s.inv_counter j = false → q1 = q' := by
    intro hbn
    rw [hq1def, if_neg (by rw [hbn]; exact Bool.false_ne_true)]
  have hcnt2T : 0 < rre →
      ∀ i, ((q2.map (fun x => x.task)).count i) =
        (q1.map (fun x => x.task)).count i + (if e.task = i then 1 else 0) := by
    intro hpos i
    rw [hq2def, if_pos hpos]
    rw [List.map_append, List.count_append]
    congr 1
    by_cases hei : e.task = i <;> simp [List.count_cons, hei]
  have hcnt2F : ¬ 0 < rre → q2 = q1 := by
    intro hpos
    rw [hq2def, if_neg hpos]
  -- rows facts
  have hrowsstop : ∀ r ∈ res1, r.stop ≤ t_rel := by
    rw [hres1def]
    split
    case isTrue hne =>
      intro r hr
      rcases icr_mem _ _ r hr with h | h | ⟨old, hold, h⟩
      · exact le_trans (hinv.rows_stop r h) hcur_le
      · rw [h]
      · rw [h]
    case isFalse hne =>
      intro r hr
      push_neg at hne
      rw [← hne]
      exact hinv.rows_stop r hr
  have hic1_ge : ∀ i, s.inv_counter.getD i 0 ≤ ic1.getD i 0 := by
    intro i
    rw [hic1def]
    split
    · exact le_refl _
    · by_cases hei : e.task = i
      · subst hei
        by_cases hlen : e.task < s.inv_counter.length
        · rw [getD_set_self _ _ _ _ hlen]; omega
        · rw [List.getD_eq_default _ _
              (show (s.inv_counter.set e.task
                  (s.inv_counter.getD e.task 0 + 1)).length ≤ e.task by
                rw [List.length_set]; omega),
              List.getD_eq_default _ _ (le_of_not_lt hlen)]
      · rw [getD_set_ne _ _ _ _ _ hei]
  refine ⟨?_, hrowsstop, hcur_le, ?_⟩
  · -- flag = false: the invariant is preserved
    intro hfl
    have hdup : duplicated_tasks q2 = [] := by
      rcases hmatch : duplicated_tasks q2 with _ | ⟨d, rest⟩
      · rfl
      · exfalso
        rw [hflag_eq, hdmdef] at hfl
        unfold check_missed_deadline at hfl
        rw [hmatch] at hfl
        simp at hfl
    have hnodup2 : (q2.map (fun x => x.task)).Nodup := duplicated_tasks_nil_nodup q2 hdup
    have hdm2 : dm.2 = s.dict_info := by
      rw [hdmdef]
      unfold check_missed_deadline
      rw [hdup]
    refine ⟨?_, ?_, ?_, ?_, hnodup2, ?_, ?_, hbc'nn, ?_, ?_, ?_, hrowsstop, ?_, ?_,
            ?_, ?_, ?_, ?_, ?_, ?_, ?_, ?_⟩
    · -- pc_len
      show pc1.length = p.periods.length
      rw [hpc1def, List.length_set]
      exact hinv.pc_len
    · -- ic_len
      show ic1.length = p.periods.length
      rw [hic1def]
      split
      · exact hinv.ic_len
      · rw [List.length_set]; exact hinv.ic_len
    · -- bc_len
      show bc'.length = p.wc_exec_time.length
      rw [hbc'len]; exact hinv.bc_len
    · -- task_lt
      intro x hx
      rcases hq2mem x hx with (h | h) | ⟨h, _⟩
      · exact hinv.task_lt x (hsub x h)
      · rw [h, hiedef, interrupting_entry_task]; exact hjN
      · rw [h]; exact hek
    · -- rem_nonneg
      intro x hx
      rcases hq2mem x hx with (h | h) | ⟨h, hpos⟩
      · exact hinv.rem_nonneg x (hsub x h)
      · rw [h, hiedef]; exact interrupting_entry_rem_nonneg p _ j hv hjN
      · rw [h]; exact le_of_lt hpos
    · -- rem_pos
      intro hio x hx
      rcases hq2mem x hx with (h | h) | ⟨h, hpos⟩
      · exact hinv.rem_pos hio x (hsub x h)
      · rw [h, hiedef]; exact interrupting_entry_rem_pos p _ j hv hio hjN
      · rw [h]; exact hpos
    · -- time_nonneg
      exact le_trans hinv.time_nonneg hcur_le
    · -- time_le
      show ∀ i, i < p.periods.length →
        t_rel ≤ p.periods.getD i 0 * (pc1.getD i 0 : ℚ)
      intro i hi
      rw [hpc1def]
      by_cases hij : j = i
      · subst hij
        rw [getD_set_self _ _ _ _ hjpc, htrel]
        push_cast
        nlinarith
      · rw [getD_set_ne _ _ _ _ _ hij]
        exact hmin i hi
    · -- pc_pos
      show ∀ i, i < p.periods.length → 1 ≤ pc1.getD i 0
      intro i hi
      rw [hpc1def]
      by_cases hij : j = i
      · subst hij; rw [getD_set_self _ _ _ _ hjpc]; omega
      · rw [getD_set_ne _ _ _ _ _ hij]; exact hinv.pc_pos i hi
    · -- rows_startstop
      show ∀ r ∈ res1, r.start ≤ r.stop
      rw [hres1def]
      split
      case isTrue hne =>
        intro r hr
        rcases icr_mem _ _ r hr with h | h | ⟨old, hold, h⟩
        · exact hinv.rows_startstop r h
        · rw [h]; exact hcur_le
        · rw [h]
          show old.start ≤ t_rel
          exact le_trans (hinv.rows_startstop old hold)
            (le_trans (hinv.rows_stop old hold) hcur_le)
      case isFalse hne =>
        exact hinv.rows_startstop
    · -- rows_strict
      show p.invocations = none → ∀ r ∈ res1, r.start < r.stop
      intro hio
      rw [hres1def]
      split
      case isTrue hne =>
        have hlt : s.current_time < t_rel := lt_of_le_of_ne hcur_le hne
        intro r hr
        rcases icr_mem _ _ r hr with h | h | ⟨old, hold, h⟩
        · exact hinv.rows_strict hio r h
        · rw [h]; exact hlt
        · rw [h]
          show old.start < t_rel
          exact lt_of_le_of_lt (le_trans (hinv.rows_startstop old hold)
            (hinv.rows_stop old hold)) hlt
      case isFalse hne =>
        exact hinv.rows_strict hio
    · -- rows_chain
      show List.Chain' (fun a b => a.stop ≤ b.start) res1
      rw [hres1def]
      split
      case isTrue hne =>
        refine icr_chain _ ?_ _ _ hinv.rows_chain ?_
        · intro a b b' hs' _ h
          show a.stop ≤ b'.start
          rw [hs']
          exact h
        · intro l hl _
          show l.stop ≤ s.current_time
          exact hinv.rows_stop l (getLast?_mem' _ _ hl)
      case isFalse hne =>
        exact hinv.rows_chain
    · -- rows_merge
      show List.Chain' (fun a b => ¬(a.task = b.task ∧ a.stop = b.start)) res1
      rw [hres1def]
      split
      case isTrue hne =>
        refine icr_chain _ ?_ _ _ hinv.rows_merge ?_
        · intro a b b' hs' ht' h
          intro ⟨h1, h2⟩
          exact h ⟨ht' ▸ h1, hs' ▸ h2⟩
        · intro l _ hcond
          exact hcond
      case isFalse hne =>
        exact hinv.rows_merge
    · -- rows_tend
      show ∀ T, p.end_time = some T → ∀ r ∈ res1, r.start < T
      intro T hT
      have hcurT : s.current_time < T := loop_cond_time p s T hT hc
      rw [hres1def]
      split
      case isTrue hne =>
        intro r hr
        rcases icr_mem _ _ r hr with h | h | ⟨old, hold, h⟩
        · exact hinv.rows_tend T hT r h
        · rw [h]; exact hcurT
        · rw [h]
          show old.start < T
          exact hinv.rows_tend T hT old hold
      case isFalse hne =>
        exact hinv.rows_tend T hT
    · -- released_le
      show p.invocations = none → ∀ i, i < p.periods.length →
        p.periods.getD i 0 * ((pc1.getD i 0 : ℚ) - 1) ≤ t_rel
      intro hio i hi
      rw [hpc1def]
      by_cases hij : j = i
      · subst hij
        rw [getD_set_self _ _ _ _ hjpc]
        rw [htrel]
        push_cast
        nlinarith
      · rw [getD_set_ne _ _ _ _ _ hij]
        exact le_trans (hinv.released_le hio i hi) hcur_le
    · -- cc_j2
      show ∀ inv, p.invocations = some inv → ∀ i, i < p.periods.length →
        ∀ u, u < p.periods.length → ic1.getD u 0 < inv.length →
          p.periods.getD i 0 * ((pc1.getD i 0 : ℚ) - 1) ≤
            p.periods.getD u 0 * (pc1.getD u 0 : ℚ)
      intro inv hio i hi u hu hiu
      have hiu' : s.inv_counter.getD u 0 < inv.length :=
        lt_of_le_of_lt (hic1_ge u) hiu
      have hRHS : p.periods.getD u 0 * ((s.period_counter.getD u 0 : ℚ)) ≤
          p.periods.getD u 0 * ((pc1.getD u 0 : ℚ)) := by
        have hPu : 0 < p.periods.getD u 0 := hv.per.2.1 _ (getD_mem _ _ _ hu)
        rw [hpc1def]
        by_cases hju : j = u
        · subst hju
          rw [getD_set_self _ _ _ _ hjpc]
          push_cast
          nlinarith
        · rw [getD_set_ne _ _ _ _ _ hju]
      rw [hpc1def]
      by_cases hij : j = i
      · subst hij
        rw [getD_set_self _ _ _ _ hjpc]
        refine le_trans ?_ hRHS
        have := hmin u hu
        rw [htrel] at this
        push_cast
        nlinarith
      · rw [getD_set_ne _ _ _ _ _ hij]
        exact le_trans (hinv.cc_j2 inv hio i hi u hu hiu') hRHS
    · -- cc_j3
      show ∀ inv, p.invocations = some inv → ∀ i, i < p.periods.length →
        ic1.getD i 0 < inv.length →
          pc1.getD i 0 ≤ ic1.getD i 0 + ((q2.map (fun x => x.task)).count i) + 1
      intro inv hio i hi hic
      have hK : p.num_invocations = some inv.length := by
        unfold EngParams.num_invocations
        rw [hio]
        rfl
      by_cases hei : e.task = i
      · -- the running task's id
        subst hei
        by_cases hrp : 0 < rre
        · have hicv : ic1.getD e.task 0 = s.inv_counter.getD e.task 0 := by
            rw [hic1def, if_pos hrp]
          have hic2 : s.inv_counter.getD e.task 0 < inv.length := by
            have h2 : ic1.getD e.task 0 < inv.length := hic
            omega
          have hold := hinv.cc_j3 inv hio e.task hi hic2
          rw [hcnt_q e.task, if_pos rfl] at hold
          have hq2c := hcnt2T hrp e.task
          rw [if_pos rfl] at hq2c
          by_cases hji : j = e.task
          · have hbn : below_num_invocations p s.inv_counter j = true := by
              rw [below_num_some_iff p _ j inv hio, hji]
              exact hic2
            have hq1c := hcnt1T hbn e.task
            rw [if_pos hji] at hq1c
            show pc1.getD e.task 0 ≤ ic1.getD e.task 0 +
              ((q2.map (fun x => x.task)).count e.task) + 1
            rw [hpc1def, hji, getD_set_self _ _ _ _ (by rw [hinv.pc_len]; exact hi),
                hicv, hq2c, hq1c]
            omega
          · show pc1.getD e.task 0 ≤ ic1.getD e.task 0 +
              ((q2.map (fun x => x.task)).count e.task) + 1
            rw [hpc1def, getD_set_ne _ _ _ _ _ hji, hicv, hq2c]
            rcases hbnc : below_num_invocations p s.inv_counter j with _ | _
            · rw [hcnt1F hbnc]
              omega
            · have hq1c := hcnt1T hbnc e.task
              rw [if_neg hji] at hq1c
              rw [hq1c]
              omega
        · have hicv : ic1.getD e.task 0 = s.inv_counter.getD e.task 0 + 1 := by
            rw [hic1def, if_neg hrp]
            exact getD_set_self _ _ _ _ (by rw [hinv.ic_len]; exact hi)
          have hic2 : s.inv_counter.getD e.task 0 < inv.length := by
            have h2 : ic1.getD e.task 0 < inv.length := hic
            omega
          have hold := hinv.cc_j3 inv hio e.task hi hic2
          rw [hcnt_q e.task, if_pos rfl] at hold
          have hq2q1 : q2 = q1 := hcnt2F hrp
          by_cases hji : j = e.task
          · have hbn : below_num_invocations p s.inv_counter j = true := by
              rw [below_num_some_iff p _ j inv hio, hji]
              exact hic2
            have hq1c := hcnt1T hbn e.task
            rw [if_pos hji] at hq1c
            show pc1.getD e.task 0 ≤ ic1.getD e.task 0 +
              ((q2.map (fun x => x.task)).count e.task) + 1
            rw [hpc1def, hji, getD_set_self _ _ _ _ (by rw [hinv.pc_len]; exact hi),
                hicv, hq2q1, hq1c]
            omega
          · show pc1.getD e.task 0 ≤ ic1.getD e.task 0 +
              ((q2.map (fun x => x.task)).count e.task) + 1
            rw [hpc1def, getD_set_ne _ _ _ _ _ hji, hicv, hq2q1]
            rcases hbnc : below_num_invocations p s.inv_counter j with _ | _
            · rw [hcnt1F hbnc]
              omega
            · have hq1c := hcnt1T hbnc e.task
              rw [if_neg hji] at hq1c
              rw [hq1c]
              omega
      · -- a task other than the running one
        have hicv : ic1.getD i 0 = s.inv_counter.getD i 0 := by
          rw [hic1def]
          split
          · rfl
          · exact getD_set_ne _ _ _ _ _ hei
        have hic2 : s.inv_counter.getD i 0 < inv.length := by
          have h2 : ic1.getD i 0 < inv.length := hic
          omega
        have hold := hinv.cc_j3 inv hio i hi hic2
        rw [hcnt_q i, if_neg hei] at hold
        have hq2c : ((q2.map (fun x => x.task)).count i) =
            (q1.map (fun x => x.task)).count i := by
          by_cases hrp : 0 < rre
          · rw [hcnt2T hrp i, if_neg hei]
            omega
          · rw [hcnt2F hrp]
        by_cases hji : j = i
        · subst hji
          have hbn : below_num_invocations p s.inv_counter j = true := by
            rw [below_num_some_iff p _ j inv hio]
            exact hic2
          have hq1c := hcnt1T hbn j
          rw [if_pos rfl] at hq1c
          show pc1.getD j 0 ≤ ic1.getD j 0 + ((q2.map (fun x => x.task)).count j) + 1
          rw [hpc1def, getD_set_self _ _ _ _ hjpc, hicv, hq2c, hq1c]
          omega
        · show pc1.getD i 0 ≤ ic1.getD i 0 + ((q2.map (fun x => x.task)).count i) + 1
          rw [hpc1def, getD_set_ne _ _ _ _ _ hji, hicv, hq2c]
          rcases hbnc : below_num_invocations p s.inv_counter j with _ | _
          · rw [hcnt1F hbnc]
            omega
          · have hq1c := hcnt1T hbnc i
            rw [if_neg hji] at hq1c
            rw [hq1c]
            omega
    · -- info_missed
      show dm.2.missed_task_num = none
      rw [hdm2]
      exact hinv.info_missed
    · -- info_occ
      show dm.2.miss_occurance = none
      rw [hdm2]
      exact hinv.info_occ
  · -- flag = true: the missed-deadline record
    intro hfl
    rcases hmatch : duplicated_tasks q2 with _ | ⟨d, rest⟩
    · exfalso
      rw [hflag_eq, hdmdef] at hfl
      unfold check_missed_deadline at hfl
      rw [hmatch] at hfl
      simp at hfl
    have hdmval :
        dm = (true,
          { s.dict_info with
            missed_task_num := some ((d : ℚ) + 1)
            miss_occurance := some t_rel }) := by
      rw [hdmdef]
      unfold check_missed_deadline
      rw [hmatch]
    have hdmem : d ∈ duplicated_tasks q2 := by
      rw [hmatch]
      exact List.mem_cons_self d rest
    have hdcount : 1 < ((q2.map (fun x => x.task)).count d) :=
      (duplicated_tasks_iff q2 d).mp hdmem
    have huniq : ∀ d', 1 < ((q2.map (fun x => x.task)).count d') → d' = j := by
      intro d' hd'
      by_contra hne
      have hb1 : ((q1.map (fun x => x.task)).count d') ≤
          (q'.map (fun x => x.task)).count d' := by
        rcases hbnc : below_num_invocations p s.inv_counter j with _ | _
        · rw [hcnt1F hbnc]
        · rw [hcnt1T hbnc d', if_neg (fun h => hne h.symm)]
          omega
      have hb2 : ((q2.map (fun x => x.task)).count d') ≤
          ((q1.map (fun x => x.task)).count d') + (if e.task = d' then 1 else 0) := by
        by_cases hrp : 0 < rre
        · rw [hcnt2T hrp d']
        · rw [hcnt2F hrp]
          split <;> omega
      by_cases hed : e.task = d'
      · subst hed
        have h0 := hq'e
        rw [if_pos rfl] at hb2
        omega
      · rw [if_neg hed] at hb2
        have h1 := hq'count d'
        omega
    refine ⟨d, ?_, ?_, ?_, ?_, ?_⟩
    · have hdj : d = j := huniq d hdcount
      rw [hdj]; exact hjN
    · exact hdcount
    · intro d' hd'
      have h1 := huniq d' hd'
      have h2 := huniq d hdcount
      rw [h1, h2]
    · show dm.2.missed_task_num = some ((d : ℚ) + 1)
      rw [hdmval]
    · show dm.2.miss_occurance = some t_rel
      rw [hdmval]

/-! ## Step-level preservation -/

/-- A `next` step from a loop-top state preserves the invariant, and the clock
never decreases across it. -/
theorem step_next_StInv (p : EngParams) (s s2 : EngState) (hv : EngValid p)
    (hinv : StInv p s) (hc : loop_cond p s = true)
    (hs : engine_step p s = .next s2) :
    StInv p s2 ∧ s.current_time ≤ s2.current_time := by
  have hNpos : 0 < p.periods.length := loop_cond_N_pos p s hinv.ic_len hc
  have hndlen : (next_deadlines p.periods s.period_counter).length = p.periods.length := by
    rw [next_deadlines_length, hinv.pc_len]
    exact Nat.min_self _
  rcases hget : get_task p.wc_exec_time s.ready_queue with _ | ep
  · -- idle branch
    have hq : s.ready_queue = [] := get_task_eq_none _ _ hget
    simp only [engine_step, hget] at hs
    cases hs
    refine ⟨idle_StInv p s hv hinv hc hq, ?_⟩
    have hndne : next_deadlines p.periods s.period_counter ≠ [] := by
      intro h0
      rw [h0] at hndlen
      simp at hndlen
      omega
    have hj : argminQ (next_deadlines p.periods s.period_counter) < p.periods.length := by
      have := argminQ_lt_length _ hndne
      omega
    have hle : s.current_time ≤
        (next_deadlines p.periods s.period_counter).getD
          (argminQ (next_deadlines p.periods s.period_counter)) 0 := by
      rw [next_deadlines_getD _ _ _ hj (by rw [hinv.pc_len]; exact hj)]
      exact hinv.time_le _ hj
    show s.current_time ≤
      (idle_branch p s (next_deadlines p.periods s.period_counter)).current_time
    simp only [idle_branch]
    split
    · exact hle
    · exact le_refl _
  · obtain ⟨e, q'⟩ := ep
    have hmem : e ∈ s.ready_queue := get_task_mem _ _ _ _ hget
    have hek : e.task < p.periods.length := hinv.task_lt e hmem
    have hrem : 0 ≤ e.rem := hinv.rem_nonneg e hmem
    simp only [engine_step, hget] at hs
    set cf := compute_frequency p s.bc_exec_time e.rem e.task with hcfdef
    have hcf : compute_frequency p s.bc_exec_time e.rem e.task
        = (s.current_time + cf.1 - s.current_time, cf.2.1, cf.2.2) := by
      have h1 : s.current_time + cf.1 - s.current_time = cf.1 := by ring
      rw [h1]
    have hexec : 0 ≤ cf.1 := by
      rw [hcfdef]
      exact compute_frequency_exec_nonneg p s.bc_exec_time e.rem e.task hv
        hinv.bc_nonneg hinv.bc_len hek hrem
    by_cases hall : (next_deadlines p.periods s.period_counter).all
        (fun d => s.current_time + cf.1 < d) = true
    · rw [if_pos hall] at hs
      cases hs
      have hall2 : ∀ i, i < p.periods.length →
          s.current_time + cf.1 <
            p.periods.getD i 0 * (s.period_counter.getD i 0 : ℚ) := by
        intro i hi
        have hm : (next_deadlines p.periods s.period_counter).getD i 0
            ∈ next_deadlines p.periods s.period_counter :=
          getD_mem _ _ _ (by rw [hndlen]; exact hi)
        have h2 := List.all_eq_true.mp hall _ hm
        rw [next_deadlines_getD _ _ _ hi (by rw [hinv.pc_len]; exact hi)] at h2
        exact of_decide_eq_true h2
      refine ⟨completion_StInv p s hv hinv hc e q' hget _ _ _ hcf hall2, ?_⟩
      show s.current_time ≤ s.current_time + cf.1
      linarith
    · rw [if_neg hall] at hs
      set pb := preempt_branch p s (next_deadlines p.periods s.period_counter) q' e
        (s.current_time + cf.1) cf.2.1 cf.2.2 with hpbdef
      have hpp := preempt_post p s hv hinv hc e q' hget
        (s.current_time + cf.1) cf.2.1 cf.2.2 hcf pb.1 pb.2 (by rw [← hpbdef])
      by_cases hfl : pb.1 = true
      · rw [if_pos hfl] at hs
        cases hs
      · rw [if_neg hfl] at hs
        cases hs
        have hflf : pb.1 = false := by
          revert hfl
          cases pb.1 <;> simp
        exact ⟨hpp.1 hflf, hpp.2.2.1⟩


/-- The rows and clock of the state produced by the preemption branch are
well-formed regardless of the missed-deadline flag (the flag only affects
`dict_info`). -/
theorem preempt_rows (p : EngParams) (s : EngState) (hinv : StInv p s)
    (hc : loop_cond p s = true) (e : QEntry) (q' : List QEntry)
    (tet freq : ℚ) (bc' : List ℚ) (flag : Bool) (s' : EngState)
    (hpb : preempt_branch p s (next_deadlines p.periods s.period_counter) q' e tet freq bc'
      = (flag, s')) :
    (∀ r ∈ s'.computed_results, r.start ≤ r.stop) ∧
    (p.invocations = none → ∀ r ∈ s'.computed_results, r.start < r.stop) ∧
    List.Chain' (fun a b => a.stop ≤ b.start) s'.computed_results ∧
    List.Chain' (fun a b => ¬(a.task = b.task ∧ a.stop = b.start)) s'.computed_results ∧
    (∀ T, p.end_time = some T → ∀ r ∈ s'.computed_results, r.start < T) ∧
    0 ≤ s'.current_time := by
  have hNpos : 0 < p.periods.length := loop_cond_N_pos p s hinv.ic_len hc
  set nd := next_deadlines p.periods s.period_counter with hnddef
  have hndlen : nd.length = p.periods.length := by
    rw [hnddef, next_deadlines_length, hinv.pc_len]
    exact Nat.min_self _
  set j := argminQ nd with hjdef
  have hjN : j < p.periods.length := by
    rw [hjdef]
    have hne : nd ≠ [] := by
      intro h0
      rw [h0] at hndlen
      simp at hndlen
      omega
    have := argminQ_lt_length nd hne
    omega
  have hjpc : j < s.period_counter.length := by
    rw [hinv.pc_len]
    exact hjN
  set t_rel := nd.getD j 0 with htrdef
  have htrel : t_rel = p.periods.getD j 0 * (s.period_counter.getD j 0 : ℚ) := by
    rw [htrdef, hnddef]
    exact next_deadlines_getD _ _ j hjN hjpc
  have hcur_le : s.current_time ≤ t_rel := by
    rw [htrel]
    exact hinv.time_le j hjN
  set rre := (tet - t_rel) * freq with hrredef
  set ie := interrupting_entry p s.period_counter j with hiedef
  set q1 := (if below_num_invocations p s.inv_counter j = true then q' ++ [ie] else q')
    with hq1def
  set q2 := (if 0 < rre then q1 ++ [(⟨e.task, e.pri, rre⟩ : QEntry)] else q1) with hq2def
  set ic1 := (if 0 < rre then s.inv_counter
              else s.inv_counter.set e.task (s.inv_counter.getD e.task 0 + 1)) with hic1def
  set res1 := (if s.current_time ≠ t_rel then
      insert_computed_results s.computed_results ⟨e.task, s.current_time, t_rel, freq⟩
    else s.computed_results) with hres1def
  set pc1 := s.period_counter.set j (s.period_counter.getD j 0 + 1) with hpc1def
  set dm := check_missed_deadline q2 t_rel s.dict_info with hdmdef
  have heq : (flag, s') = (dm.1,
      { ready_queue := q2, computed_results := res1, dict_info := dm.2,
        period_counter := pc1, inv_counter := ic1, current_time := t_rel,
        bc_exec_time := bc' }) := by
    rw [← hpb]
    rfl
  have hs'eq : s' =
      ({ ready_queue := q2, computed_results := res1, dict_info := dm.2,
         period_counter := pc1, inv_counter := ic1, current_time := t_rel,
         bc_exec_time := bc' } : EngState) := congrArg Prod.snd heq
  subst hs'eq
  refine ⟨?_, ?_, ?_, ?_, ?_, ?_⟩
  · -- rows start before stop
    show ∀ r ∈ res1, r.start ≤ r.stop
    rw [hres1def]
    split
    case isTrue hne =>
      intro r hr
      rcases icr_mem _ _ r hr with h | h | ⟨old, hold, h⟩
      · exact hinv.rows_startstop r h
      · rw [h]
        exact hcur_le
      · rw [h]
        show old.start ≤ t_rel
        exact le_trans (hinv.rows_startstop old hold)
          (le_trans (hinv.rows_stop old hold) hcur_le)
    case isFalse hne =>
      exact hinv.rows_startstop
  · -- strict for RM/EDF
    show p.invocations = none → ∀ r ∈ res1, r.start < r.stop
    intro hio
    rw [hres1def]
    split
    case isTrue hne =>
      have hlt : s.current_time < t_rel := lt_of_le_of_ne hcur_le hne
      intro r hr
      rcases icr_mem _ _ r hr with h | h | ⟨old, hold, h⟩
      · exact hinv.rows_strict hio r h
      · rw [h]
        exact hlt
      · rw [h]
        show old.start < t_rel
        exact lt_of_le_of_lt (le_trans (hinv.rows_startstop old hold)
          (hinv.rows_stop old hold)) hlt
    case isFalse hne =>
      exact hinv.rows_strict hio
  · -- chain
    show List.Chain' (fun a b => a.stop ≤ b.start) res1
    rw [hres1def]
    split
    case isTrue hne =>
      refine icr_chain _ ?_ _ _ hinv.rows_chain ?_
      · intro a b b' hs' _ h
        show a.stop ≤ b'.start
        rw [hs']
        exact h
      · intro l hl _
        show l.stop ≤ s.current_time
        exact hinv.rows_stop l (getLast?_mem' _ _ hl)
    case isFalse hne =>
      exact hinv.rows_chain
  · -- no mergeable adjacent pair
    show List.Chain' (fun a b => ¬(a.task = b.task ∧ a.stop = b.start)) res1
    rw [hres1def]
    split
    case isTrue hne =>
      refine icr_chain _ ?_ _ _ hinv.rows_merge ?_
      · intro a b b' hs' ht' h
        intro ⟨h1, h2⟩
        exact h ⟨ht' ▸ h1, hs' ▸ h2⟩
      · intro l _ hcond
        exact hcond
    case isFalse hne =>
      exact hinv.rows_merge
  · -- rows start before the horizon
    show ∀ T, p.end_time = some T → ∀ r ∈ res1, r.start < T
    intro T hT
    have hcurT : s.current_time < T := loop_cond_time p s T hT hc
    rw [hres1def]
    split
    case isTrue hne =>
      intro r hr
      rcases icr_mem _ _ r hr with h | h | ⟨old, hold, h⟩
      · exact hinv.rows_tend T hT r h
      · rw [h]
        exact hcurT
      · rw [h]
        show old.start < T
        exact hinv.rows_tend T hT old hold
    case isFalse hne =>
      exact hinv.rows_tend T hT
  · -- the clock stays nonnegative
    show (0 : ℚ) ≤ t_rel
    exact le_trans hinv.time_nonneg hcur_le


/-- A `missed` step from a loop-top state: the new state carries exactly one
duplicated task id `d`, reports `d + 1` and the new current time in
`dict_info`, and its rows are well-formed and stop by the new current time. -/
theorem step_missed_spec (p : EngParams) (s s2 : EngState) (hv : EngValid p)
    (hinv : StInv p s) (hc : loop_cond p s = true)
    (hs : engine_step p s = .missed s2) :
    (∃ d, d < p.periods.length ∧
      1 < ((s2.ready_queue.map (fun x => x.task)).count d) ∧
      (∀ d2, 1 < ((s2.ready_queue.map (fun x => x.task)).count d2) → d2 = d) ∧
      s2.dict_info.missed_task_num = some ((d : ℚ) + 1) ∧
      s2.dict_info.miss_occurance = some s2.current_time) ∧
    (∀ r ∈ s2.computed_results, r.stop ≤ s2.current_time) ∧
    s.current_time ≤ s2.current_time ∧
    (∀ r ∈ s2.computed_results, r.start ≤ r.stop) ∧
    (p.invocations = none → ∀ r ∈ s2.computed_results, r.start < r.stop) ∧
    List.Chain' (fun a b => a.stop ≤ b.start) s2.computed_results ∧
    List.Chain' (fun a b => ¬(a.task = b.task ∧ a.stop = b.start)) s2.computed_results ∧
    (∀ T, p.end_time = some T → ∀ r ∈ s2.computed_results, r.start < T) := by
  rcases hget : get_task p.wc_exec_time s.ready_queue with _ | ep
  · simp only [engine_step, hget] at hs
    cases hs
  · obtain ⟨e, q'⟩ := ep
    have hmem : e ∈ s.ready_queue := get_task_mem _ _ _ _ hget
    have hek : e.task < p.periods.length := hinv.task_lt e hmem
    have hrem : 0 ≤ e.rem := hinv.rem_nonneg e hmem
    simp only [engine_step, hget] at hs
    set cf := compute_frequency p s.bc_exec_time e.rem e.task with hcfdef
    have hcf : compute_frequency p s.bc_exec_time e.rem e.task
        = (s.current_time + cf.1 - s.current_time, cf.2.1, cf.2.2) := by
      have h1 : s.current_time + cf.1 - s.current_time = cf.1 := by ring
      rw [h1]
    by_cases hall : (next_deadlines p.periods s.period_counter).all
        (fun d => s.current_time + cf.1 < d) = true
    · rw [if_pos hall] at hs
      cases hs
    · rw [if_neg hall] at hs
      set pb := preempt_branch p s (next_deadlines p.periods s.period_counter) q' e
        (s.current_time + cf.1) cf.2.1 cf.2.2 with hpbdef
      have hpp := preempt_post p s hv hinv hc e q' hget
        (s.current_time + cf.1) cf.2.1 cf.2.2 hcf pb.1 pb.2 (by rw [← hpbdef])
      have hpr := preempt_rows p s hinv hc e q'
        (s.current_time + cf.1) cf.2.1 cf.2.2 pb.1 pb.2 (by rw [← hpbdef])
      by_cases hfl : pb.1 = true
      · rw [if_pos hfl] at hs
        cases hs
        exact ⟨hpp.2.2.2 hfl, hpp.2.1, hpp.2.2.1, hpr.1, hpr.2.1, hpr.2.2.1,
          hpr.2.2.2.1, hpr.2.2.2.2.1⟩
      · rw [if_neg hfl] at hs
        cases hs

/-- The invariant propagates along any sequence of `next` steps. -/
theorem reaches_StInv (p : EngParams) (hv : EngValid p) {s t : EngState}
    (hinv : StInv p s) (h : Reaches p s t) : StInv p t := by
  induction h with
  | refl => exact hinv
  | next h hc hstep ih => exact (step_next_StInv p _ _ hv ih hc hstep).1

/-- Every loop-top state of a run from the initial state satisfies the
invariant. -/
theorem reachable_StInv (p : EngParams) (hv : EngValid p) {s : EngState}
    (h : Reachable p s) : StInv p s :=
  reaches_StInv p hv (init_StInv p hv) h

/-- The clock never decreases along any sequence of `next` steps. -/
theorem reaches_time_mono (p : EngParams) (hv : EngValid p) {s t : EngState}
    (hinv : StInv p s) (h : Reaches p s t) : s.current_time ≤ t.current_time := by
  induction h with
  | refl => exact le_refl _
  | next h hc hstep ih =>
      exact le_trans ih
        (step_next_StInv p _ _ hv (reaches_StInv p hv hinv h) hc hstep).2

/-- Rows of the final state of any fuelled run from the initial state are
well-formed: start before stop (strictly so for RM/EDF), chained in time, with
no mergeable adjacent pair, starting before the horizon, and stopping by the
final clock. -/
theorem final_state_rows (p : EngParams) (hv : EngValid p) (fuel : ℕ) (f : EngState)
    (hf : f = (engine_run p fuel (init_state p)).1) :
    (∀ r ∈ f.computed_results, r.start ≤ r.stop) ∧
    (p.invocations = none → ∀ r ∈ f.computed_results, r.start < r.stop) ∧
    List.Chain' (fun a b => a.stop ≤ b.start) f.computed_results ∧
    List.Chain' (fun a b => ¬(a.task = b.task ∧ a.stop = b.start)) f.computed_results ∧
    (∀ T, p.end_time = some T → ∀ r ∈ f.computed_results, r.start < T) ∧
    (∀ r ∈ f.computed_results, r.stop ≤ f.current_time) := by
  rcases engine_run_cases p fuel (init_state p) with h | ⟨t, ht, htc, hts⟩
  · have hinv := reaches_StInv p hv (init_StInv p hv) (hf ▸ h)
    exact ⟨hinv.rows_startstop, hinv.rows_strict, hinv.rows_chain, hinv.rows_merge,
      hinv.rows_tend, hinv.rows_stop⟩
  · have hinvt := reaches_StInv p hv (init_StInv p hv) ht
    have hm := step_missed_spec p t f hv hinvt htc (hf ▸ hts)
    exact ⟨hm.2.2.2.1, hm.2.2.2.2.1, hm.2.2.2.2.2.1, hm.2.2.2.2.2.2.1,
      hm.2.2.2.2.2.2.2, hm.2.1⟩


/-! ## FCFS lemmas -/

theorem max_eq_ite (a b : ℚ) : max a b = if a < b then b else a := by
  rcases lt_or_ge a b with h | h
  · rw [if_pos h]
    exact max_eq_right (le_of_lt h)
  · rw [if_neg (not_lt.mpr h)]
    exact max_eq_left h

/-- The source's FCFS loop coincides with the spec's reference loop. -/
theorem fcfs_go_eq_spec (rel wc : List ℚ) (dl : Option (List ℚ)) (order : List ℕ) :
    ∀ (cur : ℚ) (res : List Row) (info : Info),
      fcfs_go rel wc dl order cur res info = fcfs_spec_go rel wc dl order cur res info := by
  induction order with
  | nil =>
      intro cur res info
      rfl
  | cons t rest ih =>
      intro cur res info
      have hmax : max cur (rel.getD t 0) = (if cur < rel.getD t 0 then rel.getD t 0 else cur) :=
        max_eq_ite _ _
      cases dl with
      | none =>
          simp only [fcfs_go, fcfs_spec_go, ← hmax]
          exact ih _ _ _
      | some d =>
          simp only [fcfs_go, fcfs_spec_go, gt_iff_lt, ← hmax]
          split
          · rfl
          · exact ih _ _ _

/-- `FCFS.compute` refines the spec's reference FCFS scheduler. -/
theorem fcfs_compute_eq_spec (rel wc : List ℚ) (dl : Option (List ℚ)) :
    fcfs_compute rel wc dl = fcfs_spec_compute rel wc dl :=
  fcfs_go_eq_spec rel wc dl (fcfs_task_order rel) 0 [] {}

/-- Rows accumulated by the FCFS loop stay chained in time: a new segment
starts no earlier than the previous segment ended. -/
theorem fcfs_go_chain (rel wc : List ℚ) (dl : Option (List ℚ)) (order : List ℕ) :
    ∀ (cur : ℚ) (res : List Row) (info : Info),
      (∀ l, res.getLast? = some l → l.stop ≤ cur) →
      List.Chain' (fun a b => a.stop ≤ b.start) res →
      List.Chain' (fun a b => a.stop ≤ b.start) (fcfs_go rel wc dl order cur res info).1 := by
  induction order with
  | nil =>
      intro cur res info _ hch
      exact hch
  | cons t rest ih =>
      intro cur res info hlast hch
      have hst : cur ≤ (if cur < rel.getD t 0 then rel.getD t 0 else cur) := by
        by_cases h : cur < rel.getD t 0
        · rw [if_pos h]
          exact le_of_lt h
        · rw [if_neg h]
      have happ : ∀ (row : Row), cur ≤ row.start →
          List.Chain' (fun a b => a.stop ≤ b.start) (res ++ [row]) := by
        intro row hrow
        rw [List.chain'_append]
        refine ⟨hch, List.chain'_singleton _, ?_⟩
        intro x hx y hy
        have hx' : res.getLast? = some x := hx
        have hy' : row = y := by
          simpa using hy
        rw [← hy']
        exact le_trans (hlast x hx') hrow
      have hlast2 : ∀ (row : Row) (c2 : ℚ), row.stop ≤ c2 →
          ∀ l, (res ++ [row]).getLast? = some l → l.stop ≤ c2 := by
        intro row c2 hc2 l hl
        rw [List.getLast?_concat] at hl
        cases hl
        exact hc2
      cases dl with
      | none =>
          simp only [fcfs_go]
          apply ih
          · apply hlast2
            exact le_refl _
          · apply happ
            exact hst
      | some d =>
          simp only [fcfs_go]
          set st := (if cur < rel.getD t 0 then rel.getD t 0 else cur) with hstdef
          split
          · apply happ
            exact hst
          · apply ih
            · apply hlast2
              exact le_refl _
            · apply happ
              exact hst

/-- Without deadlines, every segment the FCFS loop emits for a task of
positive execution time is strictly nonempty. -/
theorem fcfs_go_strict (rel wc : List ℚ) : ∀ (order : List ℕ),
    (∀ t ∈ order, 0 < wc.getD t 0) →
    ∀ (cur : ℚ) (res : List Row) (info : Info),
      (∀ r ∈ res, r.start < r.stop) →
      ∀ r ∈ (fcfs_go rel wc none order cur res info).1, r.start < r.stop := by
  intro order
  induction order with
  | nil =>
      intro _ cur res info hres
      exact hres
  | cons t rest ih =>
      intro hwc cur res info hres
      simp only [fcfs_go]
      refine ih (fun u hu => hwc u (List.mem_cons_of_mem t hu)) _ _ _ ?_
      intro r hr
      rcases List.mem_append.mp hr with h | h
      · exact hres r h
      · have hr1 : r = ⟨t, if cur < rel.getD t 0 then rel.getD t 0 else cur,
            (if cur < rel.getD t 0 then rel.getD t 0 else cur) + wc.getD t 0, 1⟩ := by
          simpa using h
        rw [hr1]
        have := hwc t (List.mem_cons_self t rest)
        show (if cur < rel.getD t 0 then rel.getD t 0 else cur) <
          (if cur < rel.getD t 0 then rel.getD t 0 else cur) + wc.getD t 0
        linarith

/-- The sorted task order is a permutation of `0 .. N-1`. -/
theorem fcfs_task_order_perm (rel : List ℚ) :
    (fcfs_task_order rel).Perm (List.range rel.length) :=
  List.mergeSort_perm _ _

/-- The sorted task order is ordered by ascending release time, ties broken by
task index. -/
theorem fcfs_task_order_sorted (rel : List ℚ) :
    List.Pairwise (fun i j => rel.getD i 0 < rel.getD j 0 ∨
      (rel.getD i 0 = rel.getD j 0 ∧ i ≤ j)) (fcfs_task_order rel) := by
  have h := @List.sorted_mergeSort ℕ
    (fun i j => decide (rel.getD i 0 < rel.getD j 0 ∨
      (rel.getD i 0 = rel.getD j 0 ∧ i ≤ j)))
    (fun a b c hab hbc => by
      have h1 := of_decide_eq_true hab
      have h2 := of_decide_eq_true hbc
      apply decide_eq_true
      rcases h1 with h1 | ⟨h1, h1i⟩ <;> rcases h2 with h2 | ⟨h2, h2i⟩
      · exact Or.inl (lt_trans h1 h2)
      · exact Or.inl (h2 ▸ h1)
      · exact Or.inl (h1 ▸ h2)
      · exact Or.inr ⟨h1.trans h2, le_trans h1i h2i⟩)
    (fun a b => by
      rw [Bool.or_eq_true]
      rcases lt_trichotomy (rel.getD a 0) (rel.getD b 0) with h | h | h
      · exact Or.inl (decide_eq_true (Or.inl h))
      · rcases le_total a b with hab | hab
        · exact Or.inl (decide_eq_true (Or.inr ⟨h, hab⟩))
        · exact Or.inr (decide_eq_true (Or.inr ⟨h.symm, hab⟩))
      · exact Or.inr (decide_eq_true (Or.inl h)))
    (List.range rel.length)
  refine h.imp ?_
  intro a b hab
  exact of_decide_eq_true hab

/-- Every task in the sorted order is a genuine task index. -/
theorem fcfs_task_order_mem (rel : List ℚ) (t : ℕ) (h : t ∈ fcfs_task_order rel) :
    t < rel.length := by
  have := List.mem_mergeSort.mp h
  exact List.mem_range.mp this


/-! ## Validity of the constructor wirings -/

theorem EngValid_rm (per wc : List ℚ) (T : ℚ) (h : PerValid per wc) :
    EngValid (rm_params per wc T) := by
  refine ⟨h, ?_, ?_⟩
  · intro i hi
    simp [rm_params] at hi
  · simp [rm_params]

theorem EngValid_edf (per wc : List ℚ) (T : ℚ) (h : PerValid per wc) :
    EngValid (edf_params per wc T) := by
  refine ⟨h, ?_, ?_⟩
  · intro i hi
    simp [edf_params] at hi
  · simp [edf_params]

theorem EngValid_cc (per wc : List ℚ) (inv : List (List ℚ))
    (h : PerValid per wc) (hi : InvValid per inv) :
    EngValid (cc_params per wc inv) := by
  refine ⟨h, ?_, ?_⟩
  · intro i hival
    simp only [cc_params, Option.some.injEq] at hival
    rw [← hival]
    exact hi
  · simp [cc_params]

/-! ## The claims -/

/-- C2 counterexample: the trace builder merges a new segment into the most
recent row even when the frequencies differ (here 1/2 vs 1), keeping the old
row's frequency; the spec's "same frequency" requirement on merging does not
hold in the code. -/
theorem C2_counterexample :
    insert_computed_results [⟨0, 0, 1, 1/2⟩] ⟨0, 1, 2, 1⟩ = [⟨0, 0, 2, 1/2⟩] := by
  norm_num [insert_computed_results]

/-- C2 (corrected): the trace builder extends the most recent row iff the new
segment has the same task id and the previous row's end equals the new
segment's start — the frequency plays no role, and the merged row keeps the
old frequency.  Consequently no two consecutive rows of any run's trace share
a task id with `prev.stop = next.start` (with or without equal frequency). -/
theorem C2_merge_rule (rs : List Row) (r new : Row) (p : EngParams) (hv : EngValid p)
    (fuel : ℕ) (f : EngState) (hf : f = (engine_run p fuel (init_state p)).1) :
    insert_computed_results (rs ++ [r]) new =
      (if r.task = new.task ∧ r.stop = new.start
       then rs ++ [{ r with stop := new.stop }] else rs ++ [r, new]) ∧
    List.Chain' (fun a b => ¬(a.task = b.task ∧ a.stop = b.start)) f.computed_results :=
  ⟨icr_append rs r new, (final_state_rows p hv fuel f hf).2.2.2.1⟩

/-- Witness for C2 at a concrete input. -/
theorem C2_merge_rule_witness :
    EngValid (rm_params [2] [1] 2) ∧
    (insert_computed_results ([] ++ [⟨0, 0, 1, 1⟩]) ⟨0, 1, 2, 1⟩ =
      (if (⟨0, 0, 1, 1⟩ : Row).task = (⟨0, 1, 2, 1⟩ : Row).task ∧
          (⟨0, 0, 1, 1⟩ : Row).stop = (⟨0, 1, 2, 1⟩ : Row).start
       then [] ++ [{ (⟨0, 0, 1, 1⟩ : Row) with stop := (⟨0, 1, 2, 1⟩ : Row).stop }]
       else [] ++ [⟨0, 0, 1, 1⟩, ⟨0, 1, 2, 1⟩]) ∧
    List.Chain' (fun a b => ¬(a.task = b.task ∧ a.stop = b.start))
      ((engine_run (rm_params [2] [1] 2) 0 (init_state (rm_params [2] [1] 2))).1.computed_results)) :=
  ⟨EngValid_rm [2] [1] 2 (by norm_num [PerValid]),
   C2_merge_rule [] ⟨0, 0, 1, 1⟩ ⟨0, 1, 2, 1⟩ (rm_params [2] [1] 2)
     (EngValid_rm [2] [1] 2 (by norm_num [PerValid])) 0 _ rfl⟩

/-- C3 counterexample: on FCFS with a deadline miss the emitted row is
`(0, 4, 3, 1)` — its start is strictly greater than its end, refuting
"every row satisfies start < end" as stated for every algorithm. -/
theorem C3_counterexample :
    fcfs_compute [4] [1] (some [3]) =
      ([⟨0, 4, 3, 1⟩],
       { schedulability := some "no", missed_task_num := some 1,
         miss_occurance := some 3 }) ∧ ¬ ((4 : ℚ) < 3) := by
  constructor
  · norm_num [fcfs_compute, fcfs_task_order, List.range_succ,
      List.mergeSort_singleton, fcfs_go]
  · norm_num

/-- C3 (corrected): in the preemptive engine every emitted row satisfies
`start ≤ stop`, and `start < stop` holds for RM/EDF (no invocation matrix);
FCFS emits strict rows for every task of positive execution time when no
deadlines are given, but a missed-deadline FCFS row (and a CC-EDF zero-length
invocation row) may have `stop ≤ start`. -/
theorem C3_row_bounds (p : EngParams) (hv : EngValid p) (fuel : ℕ) (f : EngState)
    (hf : f = (engine_run p fuel (init_state p)).1)
    (rel wc : List ℚ) (hlen : wc.length = rel.length) (hwc : ∀ c ∈ wc, 0 < c) :
    (∀ r ∈ f.computed_results, r.start ≤ r.stop) ∧
    (p.invocations = none → ∀ r ∈ f.computed_results, r.start < r.stop) ∧
    (∀ r ∈ (fcfs_compute rel wc none).1, r.start < r.stop) := by
  refine ⟨(final_state_rows p hv fuel f hf).1, (final_state_rows p hv fuel f hf).2.1, ?_⟩
  apply fcfs_go_strict rel wc (fcfs_task_order rel) ?_ 0 [] {} ?_
  · intro t ht
    have htN : t < rel.length := fcfs_task_order_mem rel t ht
    exact hwc _ (getD_mem wc t 0 (by omega))
  · intro r hr
    simp at hr

/-- Witness for C3 at a concrete input. -/
theorem C3_row_bounds_witness :
    EngValid (rm_params [2] [1] 2) ∧ ([(1 : ℚ)].length = [(4 : ℚ)].length) ∧
    (∀ c ∈ [(1 : ℚ)], 0 < c) ∧
    ((∀ r ∈ (engine_run (rm_params [2] [1] 2) 0
        (init_state (rm_params [2] [1] 2))).1.computed_results, r.start ≤ r.stop) ∧
     ((rm_params [2] [1] 2).invocations = none →
       ∀ r ∈ (engine_run (rm_params [2] [1] 2) 0
        (init_state (rm_params [2] [1] 2))).1.computed_results, r.start < r.stop) ∧
     (∀ r ∈ (fcfs_compute [4] [1] none).1, r.start < r.stop)) :=
  ⟨EngValid_rm [2] [1] 2 (by norm_num [PerValid]), rfl, by norm_num,
   C3_row_bounds (rm_params [2] [1] 2) (EngValid_rm [2] [1] 2 (by norm_num [PerValid]))
     0 _ rfl [4] [1] rfl (by norm_num)⟩

/-- C4: rows of every returned trace are time-ordered and non-overlapping
(consecutive rows satisfy `stop ≤ start`, for the preemptive engine and for
FCFS alike), and the preemptive engine's clock never decreases along a run. -/
theorem C4_time_order (p : EngParams) (hv : EngValid p) (fuel : ℕ) (f : EngState)
    (hf : f = (engine_run p fuel (init_state p)).1)
    (s t : EngState) (hs : Reachable p s) (hst : Reaches p s t)
    (rel wc : List ℚ) (dl : Option (List ℚ)) :
    List.Chain' (fun a b => a.stop ≤ b.start) f.computed_results ∧
    s.current_time ≤ t.current_time ∧
    List.Chain' (fun a b => a.stop ≤ b.start) (fcfs_compute rel wc dl).1 := by
  refine ⟨(final_state_rows p hv fuel f hf).2.2.1,
    reaches_time_mono p hv (reachable_StInv p hv hs) hst, ?_⟩
  apply fcfs_go_chain rel wc dl (fcfs_task_order rel) 0 [] {} ?_ List.chain'_nil
  intro l hl
  simp at hl

/-- Witness for C4 at a concrete input. -/
theorem C4_time_order_witness :
    EngValid (rm_params [2] [1] 2) ∧
    Reachable (rm_params [2] [1] 2) (init_state (rm_params [2] [1] 2)) ∧
    (List.Chain' (fun a b => a.stop ≤ b.start)
       ((engine_run (rm_params [2] [1] 2) 0
         (init_state (rm_params [2] [1] 2))).1.computed_results) ∧
     (init_state (rm_params [2] [1] 2)).current_time ≤
       (init_state (rm_params [2] [1] 2)).current_time ∧
     List.Chain' (fun a b => a.stop ≤ b.start) (fcfs_compute [4] [1] none).1) :=
  ⟨EngValid_rm [2] [1] 2 (by norm_num [PerValid]), Reaches.refl _,
   C4_time_order (rm_params [2] [1] 2) (EngValid_rm [2] [1] 2 (by norm_num [PerValid]))
     0 _ rfl _ _ (Reaches.refl _) (Reaches.refl _) [4] [1] none⟩

/-- C10: in every RM/EDF run (a horizon `T_end` is given) each emitted row
starts strictly before `T_end`; the final row's end may nevertheless exceed
`T_end`, because the horizon is only tested at loop entry — witnessed by the
RM run on periods `[10]`, execution times `[3]`, `T_end = 2`, whose single row
is `(0, 0, 3, 1)` with `3 > 2`. -/
theorem C10_horizon (p : EngParams) (hv : EngValid p) (T : ℚ) (hT : p.end_time = some T)
    (fuel : ℕ) (f : EngState) (hf : f = (engine_run p fuel (init_state p)).1) :
    (∀ r ∈ f.computed_results, r.start < T) ∧
    (engine_compute (rm_params [10] [3] 2) 1 =
      ([⟨0, 0, 3, 1⟩], { schedulability := some "yes" }) ∧ (2 : ℚ) < 3) := by
  refine ⟨fun r hr => (final_state_rows p hv fuel f hf).2.2.2.2.1 T hT r hr, ?_, by norm_num⟩
  norm_num [engine_compute, engine_run, engine_step, init_state, loop_cond,
    EngParams.num_invocations, rm_params, initialize_ready_queue, build_queue,
    check_schedulability, rm_check_schedulability, sumQ, get_task, argminQ,
    argminAux, argmaxQ, argmaxAux, next_deadlines, compute_frequency,
    completion_branch, insert_computed_results, List.range_succ]

/-- Witness for C10 at a concrete input. -/
theorem C10_horizon_witness :
    EngValid (rm_params [2] [1] 2) ∧ (rm_params [2] [1] 2).end_time = some 2 ∧
    ((∀ r ∈ (engine_run (rm_params [2] [1] 2) 0
        (init_state (rm_params [2] [1] 2))).1.computed_results, r.start < 2) ∧
     (engine_compute (rm_params [10] [3] 2) 1 =
       ([⟨0, 0, 3, 1⟩], { schedulability := some "yes" }) ∧ (2 : ℚ) < 3)) :=
  ⟨EngValid_rm [2] [1] 2 (by norm_num [PerValid]), rfl,
   C10_horizon (rm_params [2] [1] 2) (EngValid_rm [2] [1] 2 (by norm_num [PerValid]))
     2 rfl 0 _ rfl⟩


/-- C5 counterexample: on the CC-EDF run with periods `[4, 6]`, worst-case
execution times `[3, 3]` (worst-case utilization `3/4 + 1/2 = 5/4 ≥ 1`) and
invocations `[[1, 1], [1, 1]]`, the second dispatched segment runs at
frequency `3/4 < 1`: the learned best-case execution times make the dynamic
utilization sum smaller than the worst-case sum, so `freq = 1` is not forced
by `Σ C_i/P_i ≥ 1`. -/
theorem C5_counterexample :
    1 ≤ sumQ (List.zipWith (fun c per => c / per) [3, 3] [(4 : ℚ), 6]) ∧
    (engine_compute (cc_params [4, 6] [3, 3] [[1, 1], [1, 1]]) 2).1 =
      [⟨0, 0, 1, 1⟩, ⟨1, 1, 7/3, 3/4⟩] ∧
    (3 : ℚ)/4 < 1 := by
  refine ⟨by norm_num [sumQ], ?_, by norm_num⟩
  norm_num [engine_compute, engine_run, engine_step, init_state, loop_cond,
    initialize_ready_queue, build_queue, check_schedulability,
    cc_check_schedulability, cc_params, get_task, argminQ, argminAux, argmaxQ,
    argmaxAux, sumQ, next_deadlines, compute_frequency, cc_compute_frequency,
    completion_branch, preempt_branch, idle_branch, insert_computed_results,
    check_missed_deadline, duplicated_tasks, insertAsc, sortAsc, dedupAsc,
    nearest_entry, interrupting_entry, below_num_invocations,
    EngParams.num_invocations, List.range_succ]

/-- C5 (corrected): every frequency returned by the CC-EDF frequency
computation satisfies `freq ≤ 1`, and `freq = 1` whenever the dynamic
utilization sum — over the learned best-case execution times, with the
dispatched task's entry reset to its worst case — is at least 1.  The
worst-case sum `Σ C_i/P_i ≥ 1` alone does not force `freq = 1`. -/
theorem C5_frequency (wc per bc : List ℚ) (rem : ℚ) (k : ℕ) :
    (cc_compute_frequency wc per bc rem k).2.1 ≤ 1 ∧
    (1 ≤ sumQ (List.zipWith (fun b p => b / p) (bc.set k (wc.getD k 0)) per) →
      (cc_compute_frequency wc per bc rem k).2.1 = 1) := by
  constructor
  · show (if 1 < sumQ (List.zipWith (fun b p => b / p)
        (bc.set k (wc.getD k 0)) per) then 1
      else sumQ (List.zipWith (fun b p => b / p) (bc.set k (wc.getD k 0)) per)) ≤ 1
    split
    · exact le_refl _
    · linarith [not_lt.mp (by assumption :
        ¬ 1 < sumQ (List.zipWith (fun b p => b / p) (bc.set k (wc.getD k 0)) per))]
  · intro h
    show (if 1 < sumQ (List.zipWith (fun b p => b / p)
        (bc.set k (wc.getD k 0)) per) then 1
      else sumQ (List.zipWith (fun b p => b / p) (bc.set k (wc.getD k 0)) per)) = 1
    split
    · rfl
    · linarith [not_lt.mp (by assumption :
        ¬ 1 < sumQ (List.zipWith (fun b p => b / p) (bc.set k (wc.getD k 0)) per))]

/-- Witness for C5 at a concrete input. -/
theorem C5_frequency_witness :
    ((cc_compute_frequency [3] [2] [3] 1 0).2.1 ≤ 1 ∧
     (1 ≤ sumQ (List.zipWith (fun b p => b / p)
        (([3] : List ℚ).set 0 (([3] : List ℚ).getD 0 0)) [2]) →
       (cc_compute_frequency [3] [2] [3] 1 0).2.1 = 1)) ∧
    1 ≤ sumQ (List.zipWith (fun b p => b / p)
      (([3] : List ℚ).set 0 (([3] : List ℚ).getD 0 0)) [2]) ∧
    (cc_compute_frequency [3] [2] [3] 1 0).2.1 = 1 :=
  ⟨C5_frequency [3] [2] [3] 1 0,
   by norm_num [sumQ],
   (C5_frequency [3] [2] [3] 1 0).2 (by norm_num [sumQ])⟩

/-- C8 counterexample: the task set `periods = [2]`, `wc_exec_time = [3]`
violates `C_i ≤ P_i`, yet the facade accepts it and runs EDF on it — no
`InvalidTaskSet` failure occurs. -/
theorem C8_counterexample :
    InvalidTaskSetSpec [2] [3] none ∧
    cpu_scheduling_compute
      { scheduling_algo := some "earliest_deadline_first", periods := some [2],
        wc_exec_time := some [3], end_time := some 4 } 5
      = .ok (engine_compute (edf_params [2] [3] 4) 5,
             { scheduling_algo := none, periods := some [2],
               wc_exec_time := some [3], end_time := some 4 }) := by
  constructor
  · unfold InvalidTaskSetSpec
    refine Or.inr (Or.inr (Or.inr (Or.inr (Or.inl ⟨0, ?_, ?_⟩))))
    · norm_num
    · norm_num
  · rfl

/-- C8 (corrected): the code performs no task-set validation at all — no call
of the dispatch facade ever fails with `InvalidTaskSet`, whatever the input;
invalid task sets are accepted and run. -/
theorem C8_no_validation (ti : TaskInfo) (fuel : ℕ) :
    cpu_scheduling_compute ti fuel ≠ .error .InvalidTaskSet := by
  intro h
  simp only [cpu_scheduling_compute] at h
  split at h
  · simp at h
  · split at h
    · split at h <;> simp at h
    · split at h
      · split at h <;> simp at h
      · split at h
        · split at h <;> simp at h
        · split at h
          · split at h <;> simp at h
          · simp at h

/-- C9 counterexample: the facade deletes `scheduling_algo` from the caller's
`task_info` record: the record returned after the call differs from the record
passed in. -/
theorem C9_counterexample :
    cpu_scheduling_compute
      { scheduling_algo := some "rate_monotonic", periods := some [1],
        wc_exec_time := some [1], end_time := some 1 } 0
      = .ok (engine_compute (rm_params [1] [1] 1) 0,
             { scheduling_algo := none, periods := some [1],
               wc_exec_time := some [1], end_time := some 1 }) ∧
    ({ scheduling_algo := none, periods := some [1],
       wc_exec_time := some [1], end_time := some 1 } : TaskInfo) ≠
      { scheduling_algo := some "rate_monotonic", periods := some [1],
        wc_exec_time := some [1], end_time := some 1 } := by
  refine ⟨rfl, ?_⟩
  intro h
  have h2 := congrArg TaskInfo.scheduling_algo h
  simp at h2

/-- C9 (corrected): `compute` itself returns its outputs by value, but the
facade is not pure with respect to the caller's record: on every successful
call the returned record is the input record with `scheduling_algo` removed —
every other key and value is preserved, and the record differs from the input
whenever `scheduling_algo` was present. -/
theorem C9_frame (ti : TaskInfo) (fuel : ℕ) (res : List Row × Info) (ti2 : TaskInfo)
    (h : cpu_scheduling_compute ti fuel = .ok (res, ti2)) :
    ti2 = { ti with scheduling_algo := none } ∧
    ti2.wc_exec_time = ti.wc_exec_time ∧ ti2.release_time = ti.release_time ∧
    ti2.end_time = ti.end_time ∧ ti2.periods = ti.periods ∧
    ti2.invocations = ti.invocations ∧ ti2.deadlines = ti.deadlines ∧
    ti2.scheduling_algo = none ∧ (ti.scheduling_algo ≠ none → ti2 ≠ ti) := by
  have hti2 : ti2 = { ti with scheduling_algo := none } := by
    simp only [cpu_scheduling_compute] at h
    split at h
    · simp at h
    · split at h
      · split at h
        · simp at h
          exact h.2.symm
        · simp at h
      · split at h
        · split at h
          · simp at h
            exact h.2.symm
          · simp at h
        · split at h
          · split at h
            · simp at h
              exact h.2.symm
            · simp at h
          · split at h
            · split at h
              · simp at h
                exact h.2.symm
              · simp at h
            · simp at h
  subst hti2
  refine ⟨rfl, rfl, rfl, rfl, rfl, rfl, rfl, rfl, ?_⟩
  intro hsa heq
  apply hsa
  have h2 := congrArg TaskInfo.scheduling_algo heq
  exact h2.symm

/-- Witness for C9 at a concrete input. -/
theorem C9_frame_witness :
    cpu_scheduling_compute
      { scheduling_algo := some "CycleEDF", periods := some [2],
        wc_exec_time := some [1], invocations := some [[1]] } 0
      = .ok (engine_compute (cc_params [2] [1] [[1]]) 0,
             { scheduling_algo := none, periods := some [2],
               wc_exec_time := some [1], invocations := some [[1]] }) ∧
    ({ scheduling_algo := none, periods := some [2],
       wc_exec_time := some [1], invocations := some [[1]] } : TaskInfo).periods =
      ({ scheduling_algo := some "CycleEDF", periods := some [2],
         wc_exec_time := some [1], invocations := some [[1]] } : TaskInfo).periods ∧
    ({ scheduling_algo := none, periods := some [2],
       wc_exec_time := some [1], invocations := some [[1]] } : TaskInfo).scheduling_algo
      = none ∧
    ({ scheduling_algo := none, periods := some [2],
       wc_exec_time := some [1], invocations := some [[1]] } : TaskInfo) ≠
      { scheduling_algo := some "CycleEDF", periods := some [2],
        wc_exec_time := some [1], invocations := some [[1]] } :=
  by
  have h := C9_frame
    { scheduling_algo := some "CycleEDF", periods := some [2],
      wc_exec_time := some [1], invocations := some [[1]] } 0
    (engine_compute (cc_params [2] [1] [[1]]) 0)
    { scheduling_algo := none, periods := some [2],
      wc_exec_time := some [1], invocations := some [[1]] } rfl
  exact ⟨rfl, h.2.2.2.2.1, h.2.2.2.2.2.2.2.1, h.2.2.2.2.2.2.2.2 (by simp)⟩

/-- Without deadlines every iteration of the FCFS loop records
`schedulability = "yes"`, so a nonempty task order ends with that verdict. -/
theorem fcfs_go_none_sched (rel wc : List ℚ) : ∀ (order : List ℕ),
    order ≠ [] → ∀ (cur : ℚ) (res : List Row) (info : Info),
      (fcfs_go rel wc none order cur res info).2.schedulability = some "yes" := by
  intro order
  induction order with
  | nil =>
      intro h
      exact absurd rfl h
  | cons t rest ih =>
      intro _ cur res info
      simp only [fcfs_go]
      rcases rest with _ | ⟨u, rest2⟩
      · rfl
      · exact ih (by simp) _ _ _

theorem getD_replicate_zero (n i : ℕ) : (List.replicate n (0 : ℚ)).getD i 0 = 0 := by
  by_cases h : i < n
  · rw [List.getD_eq_getElem _ _ (by simpa using h)]
    simp
  · rw [List.getD_eq_default _ _ (by simpa using le_of_not_lt h)]

theorem pairwise_of_total {α : Type} (R : α → α → Prop) (l : List α)
    (h : ∀ a b, R a b) : List.Pairwise R l := by
  induction l with
  | nil => exact List.Pairwise.nil
  | cons a t ih => exact List.Pairwise.cons (fun b _ => h a b) ih

/-- The stable lexicographic order the executable embedding uses is one
admissible `np.argsort` result. -/
theorem fcfs_task_order_argsort (rel : List ℚ) :
    ArgsortSpec rel (fcfs_task_order rel) := by
  refine ⟨fcfs_task_order_perm rel, ?_⟩
  refine (fcfs_task_order_sorted rel).imp ?_
  intro a b hab
  rcases hab with h | ⟨h, _⟩
  · exact le_of_lt h
  · exact le_of_eq h

/-- An admissible argsort order of a nonempty release list is nonempty. -/
theorem ArgsortSpec.ne_nil {rel : List ℚ} {order : List ℕ}
    (h : ArgsortSpec rel order) (hN : rel ≠ []) : order ≠ [] := by
  intro h0
  have hlen := h.1.length_eq
  rw [h0] at hlen
  simp at hlen
  rcases rel with _ | _
  · exact hN rfl
  · simp at hlen

/-- C6 counterexample: `np.argsort`'s contract does not determine the tie
order.  For seventeen equal release times the order `[16, 0, 1, …, 15]` is an
admissible argsort result (an ascending permutation of `0..16`) — and numpy's
default quicksort, which leaves its stable insertion-sort path exactly at 17
elements and swaps tied elements while partitioning, is free to reorder ties
this way — yet task 16 precedes task 0, so "ties broken by task index" fails
already at the head pair of the order. -/
theorem C6_counterexample :
    ArgsortSpec (List.replicate 17 0) (16 :: List.range 16) ∧
    ¬ List.Pairwise (fun i j =>
        (List.replicate 17 (0 : ℚ)).getD i 0 < (List.replicate 17 (0 : ℚ)).getD j 0 ∨
        ((List.replicate 17 (0 : ℚ)).getD i 0 = (List.replicate 17 (0 : ℚ)).getD j 0 ∧
          i ≤ j)) (16 :: List.range 16) := by
  constructor
  · constructor
    · show (16 :: List.range 16).Perm (List.range (List.replicate 17 (0 : ℚ)).length)
      rw [List.length_replicate, List.range_succ]
      exact (List.perm_append_singleton 16 (List.range 16)).symm
    · refine pairwise_of_total _ _ (fun a b => ?_)
      rw [getD_replicate_zero 17 a, getD_replicate_zero 17 b]
  · intro h
    have h0 : (0 : ℕ) ∈ List.range 16 := List.mem_range.mpr (by omega)
    have h1 := (List.pairwise_cons.mp h).1 0 h0
    rcases h1 with h1 | ⟨_, h16⟩
    · rw [getD_replicate_zero, getD_replicate_zero] at h1
      exact lt_irrefl _ h1
    · omega

/-- C6 (corrected): the FCFS processing order is only guaranteed to be an
ascending-release permutation of `0..N-1` (`np.argsort`'s contract — the
unstable default sort fixes no tie order), and the stable index-tie-break
order of the executable embedding is one admissible such order.  For every
admissible order the loop behaves exactly as the spec's reference FCFS loop:
each segment starts at `max(current_time, R_i)`; without deadlines every task
emits `(i, start, start + C_i, 1)` and the info reports
`schedulability = "yes"`; with deadlines the first task whose
`start + C_i > D_i` emits `(i, start, D_i, 1)`, sets `schedulability = "no"`,
`missed_task_num = i + 1`, `miss_occurance = D_i`, and stops the loop. -/
theorem C6_fcfs_order (rel wc : List ℚ) (dl : Option (List ℚ)) (order : List ℕ)
    (hord : ArgsortSpec rel order) (hN : rel ≠ []) :
    ArgsortSpec rel (fcfs_task_order rel) ∧
    fcfs_go rel wc dl order 0 [] {} = fcfs_spec_go rel wc dl order 0 [] {} ∧
    (fcfs_go rel wc none order 0 [] {}).2.schedulability = some "yes" ∧
    fcfs_compute rel wc dl = fcfs_spec_compute rel wc dl :=
  ⟨fcfs_task_order_argsort rel,
   fcfs_go_eq_spec rel wc dl order 0 [] {},
   fcfs_go_none_sched rel wc order (hord.ne_nil hN) 0 [] {},
   fcfs_compute_eq_spec rel wc dl⟩

/-- Witness for C6 at a concrete input. -/
theorem C6_fcfs_order_witness :
    ArgsortSpec [4] [0] ∧ ([(4 : ℚ)] ≠ []) ∧
    (ArgsortSpec [4] (fcfs_task_order [4]) ∧
     fcfs_go [4] [1] (some [3]) [0] 0 [] {} =
       fcfs_spec_go [4] [1] (some [3]) [0] 0 [] {} ∧
     (fcfs_go [4] [1] none [0] 0 [] {}).2.schedulability = some "yes" ∧
     fcfs_compute [4] [1] (some [3]) = fcfs_spec_compute [4] [1] (some [3])) := by
  have hord : ArgsortSpec [4] [0] := ⟨by decide, by decide⟩
  exact ⟨hord, by simp, C6_fcfs_order [4] [1] (some [3]) [0] hord (by simp)⟩

/-- C1: on a valid task set, at every loop-top state of a preemptive run the
ready queue has pairwise-distinct task ids; when a step first creates a
duplicate id `d` (detected by `_check_missed_deadline` at the interrupting
release), the loop stops immediately — any further fuel returns the break
state — and the returned info has `missed_task_num = d + 1` (1-based, the
unique duplicated id) and `miss_occurance` equal to the new current time,
while no row of the trace stops after that time. -/
theorem C1_missed_stop (p : EngParams) (hv : EngValid p) (s s2 : EngState)
    (hs : Reachable p s) (hc : loop_cond p s = true)
    (hm : engine_step p s = .missed s2) :
    ((s.ready_queue.map (fun e => e.task)).Nodup) ∧
    (∃ d, d < p.periods.length ∧
      1 < ((s2.ready_queue.map (fun e => e.task)).count d) ∧
      (∀ d2, 1 < ((s2.ready_queue.map (fun e => e.task)).count d2) → d2 = d) ∧
      s2.dict_info.missed_task_num = some ((d : ℚ) + 1) ∧
      s2.dict_info.miss_occurance = some s2.current_time) ∧
    (∀ r ∈ s2.computed_results, r.stop ≤ s2.current_time) ∧
    (∀ fuel, engine_run p (fuel + 1) s = (s2, true)) := by
  have hinv := reachable_StInv p hv hs
  have hspec := step_missed_spec p s s2 hv hinv hc hm
  refine ⟨hinv.nodup, hspec.1, hspec.2.1, ?_⟩
  intro fuel
  simp [engine_run, hc, hm]

/-- Witness for C1 at a concrete input: the EDF run on periods `[2]`,
execution times `[3]`, horizon 4 misses in the first step. -/
theorem C1_missed_stop_witness :
    EngValid (edf_params [2] [3] 4) ∧
    loop_cond (edf_params [2] [3] 4) (init_state (edf_params [2] [3] 4)) = true ∧
    engine_step (edf_params [2] [3] 4) (init_state (edf_params [2] [3] 4)) =
      .missed
        { ready_queue := [⟨0, 4, 3⟩, ⟨0, 2, 1⟩],
          computed_results := [⟨0, 0, 2, 1⟩],
          dict_info := { schedulability := some "no", missed_task_num := some 1,
                         miss_occurance := some 2 },
          period_counter := [2], inv_counter := [0], current_time := 2,
          bc_exec_time := [3] } ∧
    ((((init_state (edf_params [2] [3] 4)).ready_queue.map
        (fun e => e.task)).Nodup) ∧
     (∃ d, d < (edf_params [2] [3] 4).periods.length ∧
       1 < ((([⟨0, 4, 3⟩, ⟨0, 2, 1⟩] : List QEntry).map (fun e => e.task)).count d) ∧
       (∀ d2, 1 < ((([⟨0, 4, 3⟩, ⟨0, 2, 1⟩] : List QEntry).map
           (fun e => e.task)).count d2) → d2 = d) ∧
       (({ schedulability := some "no", missed_task_num := some 1,
           miss_occurance := some 2 } : Info).missed_task_num = some ((d : ℚ) + 1)) ∧
       (({ schedulability := some "no", missed_task_num := some 1,
           miss_occurance := some 2 } : Info).miss_occurance = some 2)) ∧
     (∀ r ∈ ([⟨0, 0, 2, 1⟩] : List Row), r.stop ≤ (2 : ℚ)) ∧
     (∀ fuel, engine_run (edf_params [2] [3] 4) (fuel + 1)
        (init_state (edf_params [2] [3] 4)) =
       ({ ready_queue := [⟨0, 4, 3⟩, ⟨0, 2, 1⟩],
          computed_results := [⟨0, 0, 2, 1⟩],
          dict_info := { schedulability := some "no", missed_task_num := some 1,
                         miss_occurance := some 2 },
          period_counter := [2], inv_counter := [0], current_time := 2,
          bc_exec_time := [3] }, true))) := by
  have hv : EngValid (edf_params [2] [3] 4) :=
    EngValid_edf [2] [3] 4 (by norm_num [PerValid])
  have hc : loop_cond (edf_params [2] [3] 4) (init_state (edf_params [2] [3] 4))
      = true := by
    norm_num [loop_cond, init_state, edf_params, EngParams.num_invocations,
      initialize_ready_queue, build_queue, check_schedulability,
      edf_check_schedulability, sumQ]
  have hm : engine_step (edf_params [2] [3] 4) (init_state (edf_params [2] [3] 4)) =
      .missed
        { ready_queue := [⟨0, 4, 3⟩, ⟨0, 2, 1⟩],
          computed_results := [⟨0, 0, 2, 1⟩],
          dict_info := { schedulability := some "no", missed_task_num := some 1,
                         miss_occurance := some 2 },
          period_counter := [2], inv_counter := [0], current_time := 2,
          bc_exec_time := [3] } := by
    norm_num [engine_step, init_state, loop_cond, initialize_ready_queue,
      build_queue, check_schedulability, edf_check_schedulability, edf_params,
      get_task, argminQ, argminAux, argmaxQ, argmaxAux, sumQ, next_deadlines,
      compute_frequency, insert_computed_results, check_missed_deadline,
      duplicated_tasks, insertAsc, sortAsc, dedupAsc, nearest_entry,
      interrupting_entry, below_num_invocations, EngParams.num_invocations,
      preempt_branch, List.range_succ]
  exact ⟨hv, hc, hm, C1_missed_stop (edf_params [2] [3] 4) hv _ _
    (Reaches.refl _) hc hm⟩


/-! ## Termination (C7) -/

theorem le_foldr_max (l : List ℚ) : ∀ x ∈ l, x ≤ l.foldr max 0 := by
  induction l with
  | nil =>
      intro x hx
      simp at hx
  | cons a t ih =>
      intro x hx
      rcases List.mem_cons.mp hx with h | h
      · rw [h]
        exact le_max_left _ _
      · exact le_trans (ih x h) (le_max_right _ _)

theorem foldr_max_nonneg (l : List ℚ) : 0 ≤ l.foldr max 0 := by
  induction l with
  | nil => exact le_refl _
  | cons a t ih => exact le_trans ih (le_max_right _ _)

theorem map_sum_le {α : Type} (l : List α) (f g : α → ℕ)
    (h : ∀ x ∈ l, g x ≤ f x) : (l.map g).sum ≤ (l.map f).sum := by
  induction l with
  | nil => exact le_refl _
  | cons a t ih =>
      simp only [List.map_cons, List.sum_cons]
      exact Nat.add_le_add (h a (List.mem_cons_self a t))
        (ih (fun x hx => h x (List.mem_cons_of_mem a hx)))

theorem map_sum_lt {α : Type} (l : List α) (f g : α → ℕ)
    (h : ∀ x ∈ l, g x ≤ f x) (j : α) (hj : j ∈ l) (hlt : g j < f j) :
    (l.map g).sum < (l.map f).sum := by
  induction l with
  | nil => simp at hj
  | cons a t ih =>
      simp only [List.map_cons, List.sum_cons]
      rcases List.mem_cons.mp hj with hja | hjt
      · rw [← hja]
        exact Nat.add_lt_add_of_lt_of_le hlt
          (map_sum_le t f g (fun x hx => h x (List.mem_cons_of_mem a hx)))
      · exact Nat.add_lt_add_of_le_of_lt (h a (List.mem_cons_self a t))
          (ih (fun x hx => h x (List.mem_cons_of_mem a hx)) hjt)

/-- With an invocation matrix, the loop guard being true yields a task whose
invocation counter is still below the bound. -/
theorem loop_cond_cc (p : EngParams) (s : EngState) (inv : List (List ℚ))
    (hio : p.invocations = some inv) (hlen : s.inv_counter.length = p.periods.length)
    (hc : loop_cond p s = true) :
    ∃ u, u < p.periods.length ∧ s.inv_counter.getD u 0 < inv.length := by
  have hni : p.num_invocations = some inv.length := by
    unfold EngParams.num_invocations
    rw [hio]
    rfl
  unfold loop_cond at hc
  have h1 := (Bool.and_eq_true _ _).mp hc |>.1
  rw [hni] at h1
  obtain ⟨c, hcm, hck⟩ := List.any_eq_true.mp h1
  obtain ⟨i, hi, hgi⟩ := List.mem_iff_getElem.mp hcm
  refine ⟨i, by omega, ?_⟩
  rw [List.getD_eq_getElem _ _ hi, hgi]
  exact of_decide_eq_true hck

/-- Incrementing a period counter that is still below its budget strictly
decreases the budget sum of the termination measure. -/
theorem measure_sum_set (p : EngParams) (pc : List ℕ) (j : ℕ)
    (hj : j < p.periods.length) (hlen : pc.length = p.periods.length)
    (hb : pc.getD j 0 + 1 ≤ step_bound p j) :
    ((List.range p.periods.length).map
      (fun i => step_bound p i -
        min ((pc.set j (pc.getD j 0 + 1)).getD i 0) (step_bound p i))).sum <
    ((List.range p.periods.length).map
      (fun i => step_bound p i - min (pc.getD i 0) (step_bound p i))).sum := by
  have hjpc : j < pc.length := by omega
  apply map_sum_lt
  · intro i _
    by_cases hij : j = i
    · subst hij
      rw [getD_set_self _ _ _ _ hjpc]
      have h1 : min (pc.getD j 0 + 1) (step_bound p j) = pc.getD j 0 + 1 :=
        min_eq_left hb
      have h2 : min (pc.getD j 0) (step_bound p j) = pc.getD j 0 :=
        min_eq_left (by omega)
      rw [h1, h2]
      omega
    · rw [getD_set_ne _ _ _ _ _ hij]
  · exact List.mem_range.mpr hj
  · rw [getD_set_self _ _ _ _ hjpc]
    have h1 : min (pc.getD j 0 + 1) (step_bound p j) = pc.getD j 0 + 1 :=
      min_eq_left hb
    have h2 : min (pc.getD j 0) (step_bound p j) = pc.getD j 0 :=
      min_eq_left (by omega)
    rw [h1, h2]
    omega

/-- At a loop-top state the period counter of every task is strictly below its
budget: the releases of task `j` cannot outrun the horizon (RM/EDF) or the
invocation bound of the still-unfinished task (CC-EDF). -/
theorem pc_bound (p : EngParams) (s : EngState) (hv : EngValid p) (hinv : StInv p s)
    (hc : loop_cond p s = true) (hend : p.invocations = none → p.end_time ≠ none)
    (j : ℕ) (hj : j < p.periods.length) :
    s.period_counter.getD j 0 + 1 ≤ step_bound p j := by
  have hPj : 0 < p.periods.getD j 0 := hv.per.2.1 _ (getD_mem _ _ _ hj)
  rcases hio : p.invocations with _ | inv
  · rcases hT : p.end_time with _ | T
    · exact absurd hT (hend hio)
    · have hrel := hinv.released_le hio j hj
      have hcur := loop_cond_time p s T hT hc
      have h1 : (s.period_counter.getD j 0 : ℚ) - 1 < T / p.periods.getD j 0 := by
        rw [lt_div_iff hPj]
        nlinarith
      have h2 : (T / p.periods.getD j 0) ≤
          ((Nat.ceil (T / p.periods.getD j 0) : ℕ) : ℚ) := Nat.le_ceil _
      have h3 : (s.period_counter.getD j 0 : ℚ) <
          ((Nat.ceil (T / p.periods.getD j 0) : ℕ) : ℚ) + 1 := by linarith
      have h4 : s.period_counter.getD j 0 < Nat.ceil (T / p.periods.getD j 0) + 1 := by
        exact_mod_cast h3
      show s.period_counter.getD j 0 + 1 ≤ step_bound p j
      simp only [step_bound, hio, hT]
      omega
  · obtain ⟨u, hu, hicu⟩ := loop_cond_cc p s inv hio hinv.ic_len hc
    have h2 := hinv.cc_j2 inv hio j hj u hu hicu
    have h3 := hinv.cc_j3 inv hio u hu hicu
    have hcount : (s.ready_queue.map (fun e => e.task)).count u ≤ 1 :=
      List.nodup_iff_count_le_one.mp hinv.nodup u
    have hcu : s.period_counter.getD u 0 ≤ inv.length + 1 := by omega
    have hPu : p.periods.getD u 0 ≤ maxPeriod p :=
      le_foldr_max _ _ (getD_mem _ _ _ hu)
    have hPu0 : 0 < p.periods.getD u 0 := hv.per.2.1 _ (getD_mem _ _ _ hu)
    have hcu0 : (0 : ℚ) ≤ (s.period_counter.getD u 0 : ℚ) := by positivity
    have hmz : (0 : ℚ) ≤ maxPeriod p := foldr_max_nonneg _
    have h5 : p.periods.getD j 0 * ((s.period_counter.getD j 0 : ℚ) - 1) ≤
        maxPeriod p * ((inv.length : ℚ) + 1) := by
      calc p.periods.getD j 0 * ((s.period_counter.getD j 0 : ℚ) - 1)
          ≤ p.periods.getD u 0 * (s.period_counter.getD u 0 : ℚ) := h2
        _ ≤ maxPeriod p * (s.period_counter.getD u 0 : ℚ) :=
            mul_le_mul_of_nonneg_right hPu hcu0
        _ ≤ maxPeriod p * ((inv.length : ℚ) + 1) := by
            refine mul_le_mul_of_nonneg_left ?_ hmz
            exact_mod_cast hcu
    have h6 : (s.period_counter.getD j 0 : ℚ) - 1 ≤
        maxPeriod p * ((inv.length : ℚ) + 1) / p.periods.getD j 0 := by
      rw [le_div_iff hPj]
      nlinarith
    have h7 : (s.period_counter.getD j 0 : ℚ) ≤
        ((Nat.ceil (maxPeriod p * ((inv.length : ℚ) + 1) / p.periods.getD j 0) : ℕ) : ℚ)
          + 1 := by
      have := Nat.le_ceil (maxPeriod p * ((inv.length : ℚ) + 1) / p.periods.getD j 0)
      linarith
    have h8 : s.period_counter.getD j 0 ≤
        Nat.ceil (maxPeriod p * ((inv.length : ℚ) + 1) / p.periods.getD j 0) + 1 := by
      exact_mod_cast h7
    show s.period_counter.getD j 0 + 1 ≤ step_bound p j
    simp only [step_bound, hio]
    omega


/-- The preemption branch increments the interrupting task's period counter
and grows the queue by at most one entry net of the popped task. -/
theorem preempt_branch_fields (p : EngParams) (s : EngState) (nd : List ℚ)
    (q' : List QEntry) (e : QEntry) (tet freq : ℚ) (bc' : List ℚ) :
    (preempt_branch p s nd q' e tet freq bc').2.period_counter =
      s.period_counter.set (argminQ nd) (s.period_counter.getD (argminQ nd) 0 + 1) ∧
    (preempt_branch p s nd q' e tet freq bc').2.ready_queue.length ≤ q'.length + 2 := by
  constructor
  · rfl
  · show (if 0 < (tet - nd.getD (argminQ nd) 0) * freq then
        (if below_num_invocations p s.inv_counter (argminQ nd) = true then
           q' ++ [interrupting_entry p s.period_counter (argminQ nd)] else q')
        ++ [(⟨e.task, e.pri, (tet - nd.getD (argminQ nd) 0) * freq⟩ : QEntry)]
      else
        (if below_num_invocations p s.inv_counter (argminQ nd) = true then
           q' ++ [interrupting_entry p s.period_counter (argminQ nd)] else q')).length
      ≤ q'.length + 2
    split <;> split <;> simp

/-- Every iteration of the loop — including the one that breaks on a missed
deadline — strictly decreases the termination measure. -/
theorem step_measure (p : EngParams) (s : EngState) (hv : EngValid p)
    (hinv : StInv p s) (hc : loop_cond p s = true)
    (hend : p.invocations = none → p.end_time ≠ none) :
    ∀ t, (engine_step p s = .next t ∨ engine_step p s = .missed t) →
      run_measure p t < run_measure p s := by
  have hNpos : 0 < p.periods.length := loop_cond_N_pos p s hinv.ic_len hc
  have hndlen : (next_deadlines p.periods s.period_counter).length = p.periods.length := by
    rw [next_deadlines_length, hinv.pc_len]
    exact Nat.min_self _
  have hndne : next_deadlines p.periods s.period_counter ≠ [] := by
    intro h0
    rw [h0] at hndlen
    simp at hndlen
    omega
  have hj : argminQ (next_deadlines p.periods s.period_counter) < p.periods.length := by
    have := argminQ_lt_length _ hndne
    omega
  have hb := pc_bound p s hv hinv hc hend _ hj
  have hS := measure_sum_set p s.period_counter _ hj hinv.pc_len hb
  intro t ht
  rcases hget : get_task p.wc_exec_time s.ready_queue with _ | ep
  · -- idle branch
    have hq : s.ready_queue = [] := get_task_eq_none _ _ hget
    have hstep : engine_step p s =
        .next (idle_branch p s (next_deadlines p.periods s.period_counter)) := by
      simp [engine_step, hget]
    have hteq : t = idle_branch p s (next_deadlines p.periods s.period_counter) := by
      rcases ht with ht | ht <;> rw [hstep] at ht <;> cases ht
      rfl
    subst hteq
    have hpc : (idle_branch p s (next_deadlines p.periods s.period_counter)).period_counter
        = s.period_counter.set (argminQ (next_deadlines p.periods s.period_counter))
            (s.period_counter.getD
              (argminQ (next_deadlines p.periods s.period_counter)) 0 + 1) := rfl
    have hqlen : (idle_branch p s
        (next_deadlines p.periods s.period_counter)).ready_queue.length ≤ 1 := by
      simp only [idle_branch]
      split
      · simp [hq]
      · simp [hq]
    show run_measure p _ < run_measure p s
    unfold run_measure
    rw [hpc, hq]
    have hmul : (p.periods.length + 1) *
        (((List.range p.periods.length).map
          (fun i => step_bound p i -
            min ((s.period_counter.set
              (argminQ (next_deadlines p.periods s.period_counter))
              (s.period_counter.getD
                (argminQ (next_deadlines p.periods s.period_counter)) 0 + 1)).getD i 0)
              (step_bound p i))).sum + 1) ≤
        (p.periods.length + 1) *
        ((List.range p.periods.length).map
          (fun i => step_bound p i -
            min (s.period_counter.getD i 0) (step_bound p i))).sum :=
      Nat.mul_le_mul_left _ hS
    have hexp : ∀ a : ℕ, (p.periods.length + 1) * (a + 1) =
        (p.periods.length + 1) * a + (p.periods.length + 1) := by
      intro a
      ring
    rw [hexp] at hmul
    simp only [List.length_nil]
    linarith
  · obtain ⟨e, q'⟩ := ep
    have hperm : s.ready_queue.Perm (e :: q') := get_task_perm _ _ _ _ hget
    have hql : s.ready_queue.length = q'.length + 1 := by
      have := hperm.length_eq
      simpa using this
    set cf := compute_frequency p s.bc_exec_time e.rem e.task with hcfdef
    by_cases hall : (next_deadlines p.periods s.period_counter).all
        (fun d => s.current_time + cf.1 < d) = true
    · -- completion branch: the queue shrinks by one
      have hstep : engine_step p s = .next (completion_branch s q' e.task
          (s.current_time + cf.1) cf.2.1 cf.2.2) := by
        simp only [engine_step, hget]
        rw [if_pos hall]
      have hteq : t = completion_branch s q' e.task
          (s.current_time + cf.1) cf.2.1 cf.2.2 := by
        rcases ht with ht | ht <;> rw [hstep] at ht <;> cases ht
        rfl
      subst hteq
      have hpc : (completion_branch s q' e.task
          (s.current_time + cf.1) cf.2.1 cf.2.2).period_counter = s.period_counter := rfl
      have hque : (completion_branch s q' e.task
          (s.current_time + cf.1) cf.2.1 cf.2.2).ready_queue = q' := rfl
      show run_measure p _ < run_measure p s
      unfold run_measure
      rw [hpc, hque, hql]
      omega
    · -- preemption branch
      set pb := preempt_branch p s (next_deadlines p.periods s.period_counter) q' e
        (s.current_time + cf.1) cf.2.1 cf.2.2 with hpbdef
      have hstep : engine_step p s =
          (if pb.1 = true then StepRes.missed pb.2 else StepRes.next pb.2) := by
        simp only [engine_step, hget]
        rw [if_neg hall]
      have hteq : t = pb.2 := by
        rcases ht with ht | ht <;> rw [hstep] at ht <;> split at ht <;>
          first
            | (cases ht; rfl)
            | cases ht
      subst hteq
      have hflds := preempt_branch_fields p s
        (next_deadlines p.periods s.period_counter) q' e
        (s.current_time + cf.1) cf.2.1 cf.2.2
      show run_measure p pb.2 < run_measure p s
      unfold run_measure
      rw [hflds.1, hql]
      have hmul : (p.periods.length + 1) *
          (((List.range p.periods.length).map
            (fun i => step_bound p i -
              min ((s.period_counter.set
                (argminQ (next_deadlines p.periods s.period_counter))
                (s.period_counter.getD
                  (argminQ (next_deadlines p.periods s.period_counter)) 0 + 1)).getD i 0)
                (step_bound p i))).sum + 1) ≤
          (p.periods.length + 1) *
          ((List.range p.periods.length).map
            (fun i => step_bound p i -
              min (s.period_counter.getD i 0) (step_bound p i))).sum :=
        Nat.mul_le_mul_left _ hS
      have hexp : ∀ a : ℕ, (p.periods.length + 1) * (a + 1) =
          (p.periods.length + 1) * a + (p.periods.length + 1) := by
        intro a
        ring
      rw [hexp] at hmul
      have hq2 := hflds.2
      linarith

/-- With enough fuel — the termination measure of the starting state — the
loop always reaches the `true` (really finished) flag. -/
theorem engine_run_terminates (p : EngParams) (hv : EngValid p)
    (hend : p.invocations = none → p.end_time ≠ none) :
    ∀ (n : ℕ) (s : EngState), StInv p s → run_measure p s ≤ n →
      (engine_run p n s).2 = true := by
  intro n
  induction n with
  | zero =>
      intro s hinv hm
      by_cases hc : loop_cond p s = true
      · exfalso
        cases hstep : engine_step p s with
        | next t =>
            have := step_measure p s hv hinv hc hend t (Or.inl hstep)
            omega
        | missed t =>
            have := step_measure p s hv hinv hc hend t (Or.inr hstep)
            omega
      · have hcf : loop_cond p s = false := by
          revert hc
          cases loop_cond p s <;> simp
        simp [engine_run, hcf]
  | succ n ih =>
      intro s hinv hm
      by_cases hc : loop_cond p s = true
      · cases hstep : engine_step p s with
        | next t =>
            have hrun : engine_run p (n + 1) s = engine_run p n t := by
              simp [engine_run, hc, hstep]
            rw [hrun]
            refine ih t (step_next_StInv p s t hv hinv hc hstep).1 ?_
            have := step_measure p s hv hinv hc hend t (Or.inl hstep)
            omega
        | missed t =>
            have hrun : engine_run p (n + 1) s = (t, true) := by
              simp [engine_run, hc, hstep]
            rw [hrun]
      · have hcf : loop_cond p s = false := by
          revert hc
          cases loop_cond p s <;> simp
        simp [engine_run, hcf]

/-- C7: on every valid task set the loop terminates — fuel equal to the
termination measure of the initial state suffices for `engine_run` to report
a genuinely finished run — and the loop stops as soon as an exit condition
holds: `current_time ≥ T_end` falsifies the guard (RM/EDF), as does every
invocation counter having reached the invocation bound `K` (CC-EDF). -/
theorem C7_termination (p : EngParams) (hv : EngValid p)
    (hend : p.invocations = none → p.end_time ≠ none)
    (fuel : ℕ) (hfuel : run_measure p (init_state p) ≤ fuel) :
    (engine_run p fuel (init_state p)).2 = true ∧
    (∀ s : EngState, ∀ T, p.end_time = some T → T ≤ s.current_time →
      loop_cond p s = false) ∧
    (∀ s : EngState, ∀ inv, p.invocations = some inv →
      (∀ c ∈ s.inv_counter, inv.length ≤ c) → loop_cond p s = false) := by
  refine ⟨engine_run_terminates p hv hend fuel (init_state p) (init_StInv p hv) hfuel,
    ?_, ?_⟩
  · intro s T hT hle
    simp only [loop_cond, hT]
    have hdec : decide (s.current_time < T) = false :=
      decide_eq_false (not_lt.mpr hle)
    rw [hdec]
    exact Bool.and_false _
  · intro s inv hio hall
    have hni : p.num_invocations = some inv.length := by
      unfold EngParams.num_invocations
      rw [hio]
      rfl
    simp only [loop_cond, hni]
    have hany : s.inv_counter.any (fun c => c < inv.length) = false := by
      rw [List.any_eq_false]
      intro c hcm
      simp only [decide_eq_true_eq, not_lt]
      exact hall c hcm
    rw [hany]
    exact Bool.false_and _

/-- Witness for C7 at a concrete input. -/
theorem C7_termination_witness :
    EngValid (rm_params [2] [1] 2) ∧
    ((rm_params [2] [1] 2).invocations = none →
      (rm_params [2] [1] 2).end_time ≠ none) ∧
    run_measure (rm_params [2] [1] 2) (init_state (rm_params [2] [1] 2)) ≤ 9 ∧
    ((engine_run (rm_params [2] [1] 2) 9 (init_state (rm_params [2] [1] 2))).2 = true ∧
     (∀ s : EngState, ∀ T, (rm_params [2] [1] 2).end_time = some T →
       T ≤ s.current_time → loop_cond (rm_params [2] [1] 2) s = false) ∧
     (∀ s : EngState, ∀ inv, (rm_params [2] [1] 2).invocations = some inv →
       (∀ c ∈ s.inv_counter, inv.length ≤ c) →
        loop_cond (rm_params [2] [1] 2) s = false)) := by
  have hv : EngValid (rm_params [2] [1] 2) :=
    EngValid_rm [2] [1] 2 (by norm_num [PerValid])
  have hend : (rm_params [2] [1] 2).invocations = none →
      (rm_params [2] [1] 2).end_time ≠ none := by
    intro _
    simp [rm_params]
  have hm : run_measure (rm_params [2] [1] 2) (init_state (rm_params [2] [1] 2)) ≤ 9 := by
    norm_num [run_measure, step_bound, init_state, rm_params, List.range_succ,
      initialize_ready_queue, build_queue, Nat.ceil_one]
  exact ⟨hv, hend, hm, C7_termination (rm_params [2] [1] 2) hv hend 9 hm⟩


end CPUSchedSim
